import Mathlib

/-!
Shallow embedding of the pacdb package-database module (`pacdb.py`):
the version comparator (`Version`, `vercmp`, `canonicalize`), the
dependency-line parser (`_split_depends` / `_DEPENDRE`), the metadata
block parser (`Database._parse_desc`) and the reverse-dependency scan
(`Package.compute_rdepends`), together with theorems settling the
frozen claims about them.

Strings are modelled as `List Char`; the ASCII character classes
`isDigit` / `isAlpha` model Python's `str.isdigit` / `str.isalpha`
(the repository's version strings are ASCII).
-/

namespace Pacdb

/-- The three token classes of `Version._ExtentType`:
`_DIGIT`, `_ALPHA`, `_OTHER`. -/
inductive ExtentType where
  | DIGIT : ExtentType
  | ALPHA : ExtentType
  | OTHER : ExtentType
deriving DecidableEq, Repr

open ExtentType

/-- `Version._get_type`: classify one character. -/
def getType (c : Char) : ExtentType :=
  if c.isDigit then DIGIT
  else if c.isAlpha then ALPHA
  else OTHER

/-- A token of the version tokenizer: a run of characters plus its class. -/
abbrev Tok := List Char × ExtentType

/-- Loop body of `Version._parse`: `current` is the run being
accumulated, `ctype` its class (initially `_OTHER`); a class change
yields the finished run, and a pending nonempty run is yielded at the
end. -/
def parseGo : List Char → List Char → ExtentType → List Tok
  | [], current, ctype => if current = [] then [] else [(current, ctype)]
  | c :: rest, current, ctype =>
    if current = [] then
      parseGo rest [c] (getType c)
    else if getType c = ctype then
      parseGo rest (current ++ [c]) ctype
    else
      (current, ctype) :: parseGo rest [c] (getType c)

/-- `Version._parse`: tokenize a string into maximal same-class runs. -/
def parseTokens (v : List Char) : List Tok :=
  parseGo v [] OTHER

/-- Python's `cmp(a, b) = (a > b) - (a < b)` on naturals. -/
def cmpNat (a b : Nat) : Int :=
  if a < b then -1 else if b < a then 1 else 0

/-- Python's `cmp` on strings: lexicographic comparison by code point. -/
def cmpChars : List Char → List Char → Int
  | [], [] => 0
  | [], _ :: _ => -1
  | _ :: _, [] => 1
  | a :: as_, b :: bs =>
    if a < b then -1 else if b < a then 1 else cmpChars as_ bs

/-- Python's `int(p)` on a string of decimal digits. -/
def digitsToNat (p : List Char) : Nat :=
  p.foldl (fun n c => n * 10 + (c.toNat - 48)) 0

/-- The `zip_longest` loop of `Version._rpmvercmp`, acting on the two
token streams.  Branches mirror the source: the exhausted side loses
unless the other side's token is `_ALPHA`; for distinct classes the
chain `DIGIT / DIGIT / OTHER / OTHER` decides (the final fall-through,
unreachable for distinct classes, continues the loop like the Python
code); for equal classes, `_OTHER` compares by length, `_DIGIT` by
integer value, `_ALPHA` lexicographically, a zero result continuing
the loop. -/
def segCmp : List Tok → List Tok → Int
  | [], [] => 0
  | [], (_, t2) :: _ => if t2 = ALPHA then 1 else -1
  | (_, t1) :: _, [] => if t1 = ALPHA then -1 else 1
  | (p1, t1) :: r1, (p2, t2) :: r2 =>
    if t1 ≠ t2 then
      if t1 = DIGIT then 1
      else if t2 = DIGIT then -1
      else if t1 = OTHER then 1
      else if t2 = OTHER then -1
      else segCmp r1 r2
    else if t1 = OTHER then
      let ret := cmpNat p1.length p2.length
      if ret ≠ 0 then ret else segCmp r1 r2
    else if t1 = DIGIT then
      let ret := cmpNat (digitsToNat p1) (digitsToNat p2)
      if ret ≠ 0 then ret else segCmp r1 r2
    else
      let ret := cmpChars p1 p2
      if ret ≠ 0 then ret else segCmp r1 r2

/-- `Version._rpmvercmp`: segment-wise comparison of two component
strings. -/
def rpmvercmp (v1 v2 : List Char) : Int :=
  segCmp (parseTokens v1) (parseTokens v2)

/-- The `(epoch, version, release)` triple `Version.evr`. -/
structure EVR where
  e : List Char
  v : List Char
  r : Option (List Char)
deriving DecidableEq, Repr

/-- `ver.rsplit("-", 1)`: split at the last `-`; no `-` means no
release. -/
def rsplitDash (v : List Char) : List Char × Option (List Char) :=
  let rev := v.reverse
  let post := rev.takeWhile (fun c => c ≠ '-')
  match rev.dropWhile (fun c => c ≠ '-') with
  | [] => (v, none)
  | _ :: pre => (pre.reverse, some post.reverse)

/-- The string branch of `Version.__init__`:
`re.split(r'(\D)', ver, 1)` isolates the leading digit run and the
first non-digit character; when that character is an accepted epoch
separator (`:` or `~`, the set `EPOCH_SEPS`) the digit run is the
epoch, otherwise the epoch is `"0"`; the remainder is split at the
last `-` into upstream and release. -/
def parseEVR (s : List Char) : EVR :=
  match s.dropWhile Char.isDigit with
  | c :: rest =>
    if c = ':' ∨ c = '~' then
      let vr := rsplitDash rest
      ⟨s.takeWhile Char.isDigit, vr.1, vr.2⟩
    else
      let vr := rsplitDash s
      ⟨['0'], vr.1, vr.2⟩
  | [] =>
    let vr := rsplitDash s
    ⟨['0'], vr.1, vr.2⟩

/-- `Version.vercmp` specialised to two parsed strings (the shape the
top-level `vercmp(v1, v2) = Version(v1).vercmp(v2)` exercises): the
fast path on identical source strings, the fast path on equal `evr`
triples, then epoch, upstream, and — only when both sides have one —
release, each via `_rpmvercmp`. -/
def vercmpL (s1 s2 : List Char) : Int :=
  if s1 = s2 then 0
  else
    let v1 := parseEVR s1
    let v2 := parseEVR s2
    if v1 = v2 then 0
    else
      let ret := rpmvercmp v1.e v2.e
      if ret = 0 then
        let ret2 := rpmvercmp v1.v v2.v
        if ret2 = 0 then
          match v1.r, v2.r with
          | some a, some b => rpmvercmp a b
          | _, _ => ret2
        else ret2
      else ret

/-- The module-level `vercmp(v1, v2)`. -/
def vercmp (v1 v2 : String) : Int :=
  vercmpL v1.toList v2.toList

/-- `s.lstrip('0')`. -/
def lstrip0 (s : List Char) : List Char :=
  s.dropWhile (fun c => c = '0')

/-- `s.lstrip('0') or '0'`, the digit-normalisation used by
`Version.canonicalize`. -/
def canonDigits (s : List Char) : List Char :=
  if lstrip0 s = [] then ['0'] else lstrip0 s

/-- The canonical text of one upstream token in `Version.canonicalize`:
`_OTHER` collapses to `"."`, `_DIGIT` strips leading zeros (empty
becoming `"0"`), `_ALPHA` is kept. -/
def canonPiece (x : Tok) : List Char :=
  match x.2 with
  | OTHER => ['.']
  | DIGIT => canonDigits x.1
  | ALPHA => x.1

/-- The upstream loop of `Version.canonicalize`: re-emit the token
stream piece by piece. -/
def canonUp (u : List Char) : List Char :=
  (parseTokens u).foldl (fun acc x => acc ++ canonPiece x) []

/-- The epoch text of `Version.canonicalize`: `<stripped-epoch>:`
unless the epoch is `"0"`, in which case nothing. -/
def epPart (e : List Char) : List Char :=
  if e ≠ ['0'] then lstrip0 e ++ [':'] else []

/-- The release text of `Version.canonicalize`: `-<stripped-release>`
when a release is present. -/
def relPart : Option (List Char) → List Char
  | some r => '-' :: canonDigits r
  | none => []

/-- `Version.canonicalize` (default epoch separator `:`) on a version
string. -/
def canonicalizeL (s : List Char) : List Char :=
  let evr := parseEVR s
  epPart evr.e ++ canonUp evr.v ++ relPart evr.r

/-- `Version(v).canonicalize()` on strings. -/
def canonicalize (v : String) : String :=
  ⟨canonicalizeL v.toList⟩

/-- Concatenation of the runs of a token list. -/
def flatFst (l : List Tok) : List Char :=
  l.foldr (fun x acc => x.1 ++ acc) []

@[simp] lemma flatFst_nil : flatFst [] = [] := rfl

@[simp] lemma flatFst_cons (x : Tok) (l : List Tok) :
    flatFst (x :: l) = x.1 ++ flatFst l := rfl

/-- Invariant of the tokenizer loop: from a nonempty uniform
accumulator, `parseGo` emits nonempty uniform runs with pairwise
distinct adjacent classes whose concatenation is the accumulator
followed by the remaining input, the first emitted run having the
accumulator's class. -/
lemma parseGo_inv (rest : List Char) : ∀ (cur : List Char) (t : ExtentType),
    cur ≠ [] → (∀ c ∈ cur, getType c = t) →
    (∀ x ∈ parseGo rest cur t, x.1 ≠ [] ∧ ∀ c ∈ x.1, getType c = x.2) ∧
    List.Chain' (fun a b : Tok => a.2 ≠ b.2) (parseGo rest cur t) ∧
    flatFst (parseGo rest cur t) = cur ++ rest ∧
    (parseGo rest cur t).head?.map Prod.snd = some t := by
  induction rest with
  | nil =>
    intro cur t hcur hall
    simp only [parseGo, if_neg hcur]
    refine ⟨?_, ?_, ?_, ?_⟩
    · intro x hx
      simp only [List.mem_singleton] at hx
      subst hx
      exact ⟨hcur, hall⟩
    · simp
    · simp
    · simp
  | cons c rest ih =>
    intro cur t hcur hall
    by_cases hc : getType c = t
    · have hall' : ∀ d ∈ cur ++ [c], getType d = t := by
        intro d hd
        rcases List.mem_append.mp hd with h | h
        · exact hall d h
        · simp only [List.mem_singleton] at h; subst h; exact hc
      have := ih (cur ++ [c]) t (by simp) hall'
      simp only [parseGo, if_neg hcur, if_pos hc]
      refine ⟨this.1, this.2.1, ?_, this.2.2.2⟩
      rw [this.2.2.1]
      simp
    · have := ih [c] (getType c) (by simp) (by intro d hd; simp only [List.mem_singleton] at hd; subst hd; rfl)
      simp only [parseGo, if_neg hcur, if_neg hc]
      refine ⟨?_, ?_, ?_, ?_⟩
      · intro x hx
        rcases List.mem_cons.mp hx with h | h
        · subst h; exact ⟨hcur, hall⟩
        · exact this.1 x h
      · refine List.chain'_cons'.mpr ⟨?_, this.2.1⟩
        intro y hy
        have hhd := this.2.2.2
        rw [hy] at hhd
        simp only [Option.map_some', Option.some.injEq] at hhd
        rw [hhd]
        exact fun h => hc h.symm
      · simp only [flatFst_cons, this.2.2.1]
        simp
      · simp

/-- C10 infrastructure: the tokenizer's output of any string consists
of nonempty runs, each uniform in class, with adjacent runs of
distinct classes, concatenating back to the input. -/
lemma parseTokens_inv (s : List Char) :
    (∀ x ∈ parseTokens s, x.1 ≠ [] ∧ ∀ c ∈ x.1, getType c = x.2) ∧
    List.Chain' (fun a b : Tok => a.2 ≠ b.2) (parseTokens s) ∧
    flatFst (parseTokens s) = s := by
  cases s with
  | nil => refine ⟨by simp [parseTokens, parseGo], by simp [parseTokens, parseGo], rfl⟩
  | cons c s' =>
    have hstep : parseTokens (c :: s') = parseGo s' [c] (getType c) := by
      simp [parseTokens, parseGo]
    have := parseGo_inv s' [c] (getType c) (by simp)
      (by intro d hd; simp only [List.mem_singleton] at hd; subst hd; rfl)
    rw [hstep]
    exact ⟨this.1, this.2.1, by rw [this.2.2.1]; rfl⟩

/-- Pushing a uniform run through the tokenizer loop only extends the
accumulator. -/
lemma parseGo_run (xs : List Char) : ∀ (ys cur : List Char) (t : ExtentType),
    cur ≠ [] → (∀ c ∈ xs, getType c = t) →
    parseGo (xs ++ ys) cur t = parseGo ys (cur ++ xs) t := by
  induction xs with
  | nil => intro ys cur t _ _; simp
  | cons x xs ih =>
    intro ys cur t hcur hall
    have hx : getType x = t := hall x (by simp)
    simp only [List.cons_append, parseGo, if_neg hcur, if_pos hx, List.append_eq]
    rw [ih ys (cur ++ [x]) t (by simp) (fun c hc => hall c (by simp [hc]))]
    simp

/-- Inverse characterization of the tokenizer: feeding it the
concatenation of well-formed runs (nonempty, uniform, adjacent classes
distinct, first class different from the accumulator's) reproduces
exactly those runs. -/
lemma parseGo_flat : ∀ (toks : List Tok) (cur : List Char) (t : ExtentType),
    cur ≠ [] →
    (∀ x ∈ toks, x.1 ≠ [] ∧ ∀ c ∈ x.1, getType c = x.2) →
    List.Chain' (fun a b : Tok => a.2 ≠ b.2) toks →
    (∀ x ∈ toks.head?, x.2 ≠ t) →
    parseGo (flatFst toks) cur t = (cur, t) :: toks := by
  intro toks
  induction toks with
  | nil =>
    intro cur t hcur _ _ _
    simp [parseGo, hcur]
  | cons x toks ih =>
    intro cur t hcur hwf hchain hhd
    obtain ⟨p, s⟩ := x
    have hp : p ≠ [] ∧ ∀ c ∈ p, getType c = s := hwf (p, s) (by simp)
    obtain ⟨d, p', hdp⟩ := List.exists_cons_of_ne_nil hp.1
    have hd : getType d = s := by
      apply hp.2; rw [hdp]; simp
    have hst : s ≠ t := hhd (p, s) (by simp)
    have hflat : flatFst ((p, s) :: toks) = d :: (p' ++ flatFst toks) := by
      simp [hdp]
    rw [hflat]
    simp only [parseGo, if_neg hcur]
    rw [if_neg (by rw [hd]; exact hst)]
    congr 1
    rw [hd]
    rw [parseGo_run p' (flatFst toks) [d] s (by simp)
      (fun c hc => hp.2 c (by rw [hdp]; simp [hc]))]
    have : [d] ++ p' = p := by rw [hdp]; rfl
    rw [this]
    rcases toks with _ | ⟨y, toks'⟩
    · simp [parseGo, hp.1]
    · exact ih p s hp.1 (fun z hz => hwf z (by simp [hz]))
        (List.chain'_cons'.mp hchain).2
        (by
          intro z hz
          simp only [List.head?_cons, Option.mem_def, Option.some.injEq] at hz
          subst hz
          exact fun h => ((List.chain'_cons'.mp hchain).1 y rfl) h.symm)

/-- Tokenizing the concatenation of well-formed runs yields those runs. -/
lemma parseTokens_flat (toks : List Tok)
    (h1 : ∀ x ∈ toks, x.1 ≠ [] ∧ ∀ c ∈ x.1, getType c = x.2)
    (h2 : List.Chain' (fun a b : Tok => a.2 ≠ b.2) toks) :
    parseTokens (flatFst toks) = toks := by
  rcases toks with _ | ⟨⟨p, s⟩, toks'⟩
  · rfl
  · have hp : p ≠ [] ∧ ∀ c ∈ p, getType c = s := h1 (p, s) (by simp)
    obtain ⟨d, p', hdp⟩ := List.exists_cons_of_ne_nil hp.1
    have hd : getType d = s := by apply hp.2; rw [hdp]; simp
    have hflat : flatFst ((p, s) :: toks') = d :: (p' ++ flatFst toks') := by
      simp [hdp]
    rw [hflat]
    have hstep : parseTokens (d :: (p' ++ flatFst toks')) =
        parseGo (p' ++ flatFst toks') [d] (getType d) := by
      simp [parseTokens, parseGo]
    rw [hstep, hd]
    rw [parseGo_run p' (flatFst toks') [d] s (by simp)
      (fun c hc => hp.2 c (by rw [hdp]; simp [hc]))]
    have : [d] ++ p' = p := by rw [hdp]; rfl
    rw [this]
    rcases toks' with _ | ⟨y, toks''⟩
    · simp [parseGo, hp.1]
    · exact parseGo_flat (y :: toks'') p s hp.1
        (fun z hz => h1 z (by simp [hz]))
        (List.chain'_cons'.mp h2).2
        (by
          intro z hz
          simp only [List.head?_cons, Option.mem_def, Option.some.injEq] at hz
          subst hz
          exact fun h => ((List.chain'_cons'.mp h2).1 y rfl) h.symm)

section ComparatorAlgebra

@[simp] lemma cmpNat_self (a : Nat) : cmpNat a a = 0 := by simp [cmpNat]

lemma cmpNat_eq_zero {a b : Nat} : cmpNat a b = 0 ↔ a = b := by
  unfold cmpNat
  split_ifs with h1 h2
  · exact ⟨fun h => absurd h (by decide), fun h => by omega⟩
  · exact ⟨fun h => absurd h (by decide), fun h => by omega⟩
  · exact ⟨fun _ => by omega, fun _ => rfl⟩

lemma cmpNat_neg (a b : Nat) : cmpNat a b = -cmpNat b a := by
  unfold cmpNat; split_ifs <;> omega

lemma cmpNat_lt_iff {a b : Nat} : cmpNat a b < 0 ↔ a < b := by
  unfold cmpNat
  split_ifs with h1 h2
  · exact ⟨fun _ => h1, fun _ => by decide⟩
  · exact ⟨fun h => absurd h (by decide), fun h => absurd h h1⟩
  · exact ⟨fun h => absurd h (by decide), fun h => absurd h h1⟩

lemma cmpNat_le_iff {a b : Nat} : cmpNat a b ≤ 0 ↔ a ≤ b := by
  unfold cmpNat
  split_ifs with h1 h2
  · exact ⟨fun _ => le_of_lt h1, fun _ => by decide⟩
  · exact ⟨fun h => absurd h (by decide), fun h => by omega⟩
  · exact ⟨fun _ => by omega, fun _ => by decide⟩

@[simp] lemma cmpChars_self (a : List Char) : cmpChars a a = 0 := by
  induction a with
  | nil => rfl
  | cons x xs ih => simp [cmpChars, ih]

lemma cmpChars_cons_lt {x y : Char} {as_ bs : List Char}
    (h : cmpChars (x :: as_) (y :: bs) < 0) :
    x < y ∨ (x = y ∧ cmpChars as_ bs < 0) := by
  simp only [cmpChars] at h
  split_ifs at h with h1 h2
  · exact Or.inl h1
  · omega
  · exact Or.inr ⟨le_antisymm (not_lt.mp h2) (not_lt.mp h1), h⟩

lemma cmpChars_cons_of_lt {x y : Char} (as_ bs : List Char) (h : x < y) :
    cmpChars (x :: as_) (y :: bs) = -1 := by
  simp [cmpChars, h]

lemma cmpChars_cons_of_eq {x y : Char} (as_ bs : List Char) (h : x = y) :
    cmpChars (x :: as_) (y :: bs) = cmpChars as_ bs := by
  subst h
  simp [cmpChars]

lemma cmpChars_eq_zero : ∀ {a b : List Char}, cmpChars a b = 0 ↔ a = b := by
  intro a
  induction a with
  | nil => intro b; cases b <;> simp [cmpChars]
  | cons x as_ ih =>
    intro b
    cases b with
    | nil => simp [cmpChars]
    | cons y bs =>
      simp only [cmpChars, List.cons.injEq]
      split_ifs with h1 h2
      · constructor
        · intro h; exact absurd h (by decide)
        · rintro ⟨h, _⟩; exact absurd h (ne_of_lt h1)
      · constructor
        · intro h; exact absurd h (by decide)
        · rintro ⟨h, _⟩; exact absurd h.symm (ne_of_lt h2)
      · rw [ih]
        have hxy : x = y := le_antisymm (not_lt.mp h2) (not_lt.mp h1)
        simp [hxy]

lemma cmpChars_neg : ∀ (a b : List Char), cmpChars a b = -cmpChars b a := by
  intro a
  induction a with
  | nil => intro b; cases b <;> simp [cmpChars]
  | cons x as_ ih =>
    intro b
    cases b with
    | nil => simp [cmpChars]
    | cons y bs =>
      simp only [cmpChars]
      rcases lt_trichotomy x y with h | h | h
      · simp [h, not_lt.mpr (le_of_lt h), lt_asymm h]
      · subst h; simp [lt_irrefl, ih]
      · simp [h, not_lt.mpr (le_of_lt h), lt_asymm h]

lemma cmpChars_lt_trans : ∀ (a b c : List Char),
    cmpChars a b < 0 → cmpChars b c < 0 → cmpChars a c < 0 := by
  intro a
  induction a with
  | nil =>
    intro b c h1 h2
    cases b with
    | nil => simp [cmpChars] at h1
    | cons y bs =>
      cases c with
      | nil => simp [cmpChars] at h2
      | cons z cs => simp [cmpChars]
  | cons x as_ ih =>
    intro b c h1 h2
    cases b with
    | nil => simp [cmpChars] at h1
    | cons y bs =>
      cases c with
      | nil => simp [cmpChars] at h2
      | cons z cs =>
        rcases cmpChars_cons_lt h1 with hxy | ⟨hxy, hrec1⟩ <;>
          rcases cmpChars_cons_lt h2 with hyz | ⟨hyz, hrec2⟩
        · rw [cmpChars_cons_of_lt _ _ (lt_trans hxy hyz)]; omega
        · rw [hyz] at hxy; rw [cmpChars_cons_of_lt _ _ hxy]; omega
        · rw [← hxy] at hyz; rw [cmpChars_cons_of_lt _ _ hyz]; omega
        · rw [hxy, hyz, cmpChars_cons_of_eq]
          · exact ih bs cs hrec1 hrec2
          · rfl

lemma cmpChars_lt_of_lt_of_eq {a b c : List Char}
    (h1 : cmpChars a b < 0) (h2 : cmpChars b c = 0) : cmpChars a c < 0 := by
  rw [cmpChars_eq_zero.mp h2] at h1; exact h1

lemma cmpChars_lt_of_eq_of_lt {a b c : List Char}
    (h1 : cmpChars a b = 0) (h2 : cmpChars b c < 0) : cmpChars a c < 0 := by
  rw [cmpChars_eq_zero.mp h1]; exact h2

/-- Rank of a token class in the order the distinct-class branch of
`_rpmvercmp` induces (`ALPHA` below an exhausted stream, which sits
below `OTHER`, which sits below `DIGIT`). -/
def classRank : ExtentType → Nat
  | ALPHA => 0
  | OTHER => 2
  | DIGIT => 3

lemma classRank_inj : ∀ {s t : ExtentType}, classRank s = classRank t → s = t := by
  intro s t
  cases s <;> cases t <;> simp [classRank]

lemma classRank_eq_zero : ∀ {t : ExtentType}, classRank t = 0 ↔ t = ALPHA := by
  intro t; cases t <;> simp [classRank]

/-- The same-class comparison of `_rpmvercmp`: `_OTHER` by length,
`_DIGIT` by integer value, `_ALPHA` lexicographically. -/
def sameCmp (x y : Tok) : Int :=
  match x.2 with
  | OTHER => cmpNat x.1.length y.1.length
  | DIGIT => cmpNat (digitsToNat x.1) (digitsToNat y.1)
  | ALPHA => cmpChars x.1 y.1

/-- One step of the `_rpmvercmp` loop when both tokens are present. -/
def tokCmp (x y : Tok) : Int :=
  if x.2 = y.2 then sameCmp x y
  else cmpNat (classRank x.2) (classRank y.2)

@[simp] lemma tokCmp_self (x : Tok) : tokCmp x x = 0 := by
  rcases x with ⟨p, t⟩
  cases t <;> simp [tokCmp, sameCmp]

lemma tokCmp_neg (x y : Tok) : tokCmp x y = -tokCmp y x := by
  rcases x with ⟨p, s⟩
  rcases y with ⟨q, t⟩
  by_cases h : s = t
  · subst h
    cases s
    · simp only [tokCmp, if_pos rfl, sameCmp]; exact cmpNat_neg _ _
    · simp only [tokCmp, if_pos rfl, sameCmp]; exact cmpChars_neg _ _
    · simp only [tokCmp, if_pos rfl, sameCmp]; exact cmpNat_neg _ _
  · rw [tokCmp, tokCmp, if_neg h, if_neg (fun ht => h ht.symm)]
    exact cmpNat_neg _ _

lemma tokCmp_eq_class {x y : Tok} (h : tokCmp x y = 0) : x.2 = y.2 := by
  by_cases hc : x.2 = y.2
  · exact hc
  · rw [tokCmp, if_neg hc] at h
    exact absurd (classRank_inj (cmpNat_eq_zero.mp h)) hc

lemma tokCmp_lt_iff {x y : Tok} : tokCmp x y < 0 ↔
    classRank x.2 < classRank y.2 ∨ (x.2 = y.2 ∧ sameCmp x y < 0) := by
  by_cases hc : x.2 = y.2
  · rw [tokCmp, if_pos hc, hc]
    simp [hc]
  · rw [tokCmp, if_neg hc, cmpNat_lt_iff]
    simp [hc]

lemma tokCmp_le_rank {x y : Tok} (h : tokCmp x y ≤ 0) :
    classRank x.2 ≤ classRank y.2 := by
  by_cases hc : x.2 = y.2
  · rw [hc]
  · rw [tokCmp, if_neg hc, cmpNat_le_iff] at h
    exact h

lemma sameCmp_eq_keys {x y : Tok} (hc : x.2 = y.2) (h : sameCmp x y = 0) :
    (x.2 = OTHER → x.1.length = y.1.length) ∧
    (x.2 = DIGIT → digitsToNat x.1 = digitsToNat y.1) ∧
    (x.2 = ALPHA → x.1 = y.1) := by
  rcases x with ⟨p, s⟩
  rcases y with ⟨q, t⟩
  have hst : s = t := hc
  subst hst
  cases s <;>
    simp_all [sameCmp, cmpNat_eq_zero, cmpChars_eq_zero]

lemma sameCmp_eq_trans {x y z : Tok} (hxy : x.2 = y.2) (hyz : y.2 = z.2)
    (h1 : sameCmp x y = 0) (h2 : sameCmp y z = 0) : sameCmp x z = 0 := by
  rcases x with ⟨p, s⟩
  rcases y with ⟨q, t⟩
  rcases z with ⟨r, u⟩
  simp only at hxy hyz
  subst hxy; subst hyz
  cases s <;>
    simp_all [sameCmp, cmpNat_eq_zero, cmpChars_eq_zero]

lemma sameCmp_lt_of_lt_of_eq {x y z : Tok} (hxy : x.2 = y.2) (hyz : y.2 = z.2)
    (h1 : sameCmp x y < 0) (h2 : sameCmp y z = 0) : sameCmp x z < 0 := by
  rcases x with ⟨p, s⟩
  rcases y with ⟨q, t⟩
  rcases z with ⟨r, u⟩
  simp only at hxy hyz
  subst hxy; subst hyz
  cases s <;>
    simp_all [sameCmp, cmpNat_eq_zero, cmpChars_eq_zero]

lemma sameCmp_lt_of_eq_of_lt {x y z : Tok} (hxy : x.2 = y.2) (hyz : y.2 = z.2)
    (h1 : sameCmp x y = 0) (h2 : sameCmp y z < 0) : sameCmp x z < 0 := by
  rcases x with ⟨p, s⟩
  rcases y with ⟨q, t⟩
  rcases z with ⟨r, u⟩
  simp only at hxy hyz
  subst hxy; subst hyz
  cases s <;>
    simp_all [sameCmp, cmpNat_eq_zero, cmpChars_eq_zero]

lemma sameCmp_lt_trans {x y z : Tok} (hxy : x.2 = y.2) (hyz : y.2 = z.2)
    (h1 : sameCmp x y < 0) (h2 : sameCmp y z < 0) : sameCmp x z < 0 := by
  rcases x with ⟨p, s⟩
  rcases y with ⟨q, t⟩
  rcases z with ⟨r, u⟩
  simp only at hxy hyz
  subst hxy; subst hyz
  cases s <;>
    simp only [sameCmp, cmpNat_lt_iff] at h1 h2 ⊢
  · omega
  · exact cmpChars_lt_trans _ _ _ h1 h2
  · omega

lemma tokCmp_eq_trans {x y z : Tok}
    (h1 : tokCmp x y = 0) (h2 : tokCmp y z = 0) : tokCmp x z = 0 := by
  have hxy := tokCmp_eq_class h1
  have hyz := tokCmp_eq_class h2
  rw [tokCmp, if_pos hxy] at h1
  rw [tokCmp, if_pos hyz] at h2
  rw [tokCmp, if_pos (hxy.trans hyz)]
  exact sameCmp_eq_trans hxy hyz h1 h2

lemma tokCmp_lt_of_lt_of_eq {x y z : Tok}
    (h1 : tokCmp x y < 0) (h2 : tokCmp y z = 0) : tokCmp x z < 0 := by
  have hyz := tokCmp_eq_class h2
  rw [tokCmp, if_pos hyz] at h2
  rcases tokCmp_lt_iff.mp h1 with hr | ⟨hc, hs⟩
  · exact tokCmp_lt_iff.mpr (Or.inl (by rw [← hyz]; exact hr))
  · exact tokCmp_lt_iff.mpr (Or.inr ⟨hc.trans hyz, sameCmp_lt_of_lt_of_eq hc hyz hs h2⟩)

lemma tokCmp_lt_of_eq_of_lt {x y z : Tok}
    (h1 : tokCmp x y = 0) (h2 : tokCmp y z < 0) : tokCmp x z < 0 := by
  have hxy := tokCmp_eq_class h1
  rw [tokCmp, if_pos hxy] at h1
  rcases tokCmp_lt_iff.mp h2 with hr | ⟨hc, hs⟩
  · exact tokCmp_lt_iff.mpr (Or.inl (by rw [hxy]; exact hr))
  · exact tokCmp_lt_iff.mpr (Or.inr ⟨hxy.trans hc, sameCmp_lt_of_eq_of_lt hxy hc h1 hs⟩)

lemma tokCmp_lt_trans {x y z : Tok}
    (h1 : tokCmp x y < 0) (h2 : tokCmp y z < 0) : tokCmp x z < 0 := by
  rcases tokCmp_lt_iff.mp h1 with hr1 | ⟨hc1, hs1⟩ <;>
    rcases tokCmp_lt_iff.mp h2 with hr2 | ⟨hc2, hs2⟩
  · exact tokCmp_lt_iff.mpr (Or.inl (lt_trans hr1 hr2))
  · exact tokCmp_lt_iff.mpr (Or.inl (by rw [← hc2]; exact hr1))
  · exact tokCmp_lt_iff.mpr (Or.inl (by rw [hc1]; exact hr2))
  · exact tokCmp_lt_iff.mpr (Or.inr ⟨hc1.trans hc2, sameCmp_lt_trans hc1 hc2 hs1 hs2⟩)

/-- The cons/cons step of `segCmp` is the lexicographic step over
`tokCmp` (the unreachable Python fall-through for distinct classes
collapses away because only three classes exist). -/
lemma segCmp_cons (x y : Tok) (xs ys : List Tok) :
    segCmp (x :: xs) (y :: ys) = if tokCmp x y = 0 then segCmp xs ys else tokCmp x y := by
  rcases x with ⟨p, s⟩
  rcases y with ⟨q, t⟩
  cases s <;> cases t <;>
    simp [segCmp, tokCmp, sameCmp, classRank, cmpNat]

@[simp] lemma segCmp_refl (l : List Tok) : segCmp l l = 0 := by
  induction l with
  | nil => rfl
  | cons x xs ih => rw [segCmp_cons]; simp [ih]

lemma segCmp_nil_cons (y : Tok) (ys : List Tok) :
    segCmp [] (y :: ys) = if y.2 = ALPHA then 1 else -1 := by
  rcases y with ⟨q, t⟩; rfl

lemma segCmp_cons_nil (x : Tok) (xs : List Tok) :
    segCmp (x :: xs) [] = if x.2 = ALPHA then -1 else 1 := by
  rcases x with ⟨p, t⟩; rfl

lemma segCmp_neg : ∀ (a b : List Tok), segCmp a b = -segCmp b a := by
  intro a
  induction a with
  | nil =>
    intro b
    cases b with
    | nil => rfl
    | cons y ys =>
      rw [segCmp_nil_cons, segCmp_cons_nil]
      split_ifs <;> rfl
  | cons x xs ih =>
    intro b
    cases b with
    | nil =>
      rw [segCmp_nil_cons, segCmp_cons_nil]
      split_ifs <;> rfl
    | cons y ys =>
      rw [segCmp_cons, segCmp_cons, ih ys]
      by_cases h : tokCmp x y = 0
      · have h' : tokCmp y x = 0 := by rw [tokCmp_neg, h]; rfl
        simp [h, h']
      · have h' : tokCmp y x ≠ 0 := fun hz => h (by rw [tokCmp_neg, hz]; rfl)
        simp [h, h', tokCmp_neg x y]

/-- A `segCmp` result `≤ 0` forces the head comparison `≤ 0`. -/
lemma segCmp_le_head {x y : Tok} {xs ys : List Tok}
    (h : segCmp (x :: xs) (y :: ys) ≤ 0) : tokCmp x y ≤ 0 := by
  rw [segCmp_cons] at h
  by_cases h0 : tokCmp x y = 0
  · omega
  · rw [if_neg h0] at h; exact h

lemma segCmp_eq_trans : ∀ (a b c : List Tok),
    segCmp a b = 0 → segCmp b c = 0 → segCmp a c = 0 := by
  intro a
  induction a with
  | nil =>
    intro b c h1 h2
    cases b with
    | nil => exact h2
    | cons y ys =>
      rw [segCmp_nil_cons] at h1
      split_ifs at h1 <;> omega
  | cons x xs ih =>
    intro b c h1 h2
    cases b with
    | nil =>
      rw [segCmp_cons_nil] at h1
      split_ifs at h1 <;> omega
    | cons y ys =>
      rw [segCmp_cons] at h1
      by_cases hxy : tokCmp x y = 0
      · rw [if_pos hxy] at h1
        cases c with
        | nil =>
          rw [segCmp_cons_nil] at h2
          split_ifs at h2 <;> omega
        | cons z zs =>
          rw [segCmp_cons] at h2
          by_cases hyz : tokCmp y z = 0
          · rw [if_pos hyz] at h2
            rw [segCmp_cons, if_pos (tokCmp_eq_trans hxy hyz)]
            exact ih ys zs h1 h2
          · rw [if_neg hyz] at h2; exact absurd h2 hyz
      · rw [if_neg hxy] at h1; exact absurd h1 hxy

lemma segCmp_lt_of_lt_of_eq : ∀ (a b c : List Tok),
    segCmp a b < 0 → segCmp b c = 0 → segCmp a c < 0 := by
  intro a
  induction a with
  | nil =>
    intro b c h1 h2
    cases b with
    | nil => simp at h1
    | cons y ys =>
      cases c with
      | nil =>
        rw [segCmp_cons_nil] at h2
        split_ifs at h2 <;> omega
      | cons z zs =>
        rw [segCmp_nil_cons] at h1 ⊢
        rw [segCmp_cons] at h2
        by_cases hyz : tokCmp y z = 0
        · have hcl := tokCmp_eq_class hyz
          rw [← hcl]
          exact h1
        · rw [if_neg hyz] at h2; exact absurd h2 hyz
  | cons x xs ih =>
    intro b c h1 h2
    cases b with
    | nil =>
      cases c with
      | nil => exact h1
      | cons z zs =>
        rw [segCmp_nil_cons] at h2
        split_ifs at h2 <;> omega
    | cons y ys =>
      cases c with
      | nil =>
        rw [segCmp_cons_nil] at h2
        split_ifs at h2 <;> omega
      | cons z zs =>
        rw [segCmp_cons] at h1 h2 ⊢
        by_cases hyz : tokCmp y z = 0
        · rw [if_pos hyz] at h2
          by_cases hxy : tokCmp x y = 0
          · rw [if_pos hxy] at h1
            rw [if_pos (tokCmp_eq_trans hxy hyz)]
            exact ih ys zs h1 h2
          · rw [if_neg hxy] at h1
            have hxz : tokCmp x z < 0 := tokCmp_lt_of_lt_of_eq h1 hyz
            rw [if_neg (by omega)]
            exact hxz
        · rw [if_neg hyz] at h2; exact absurd h2 hyz

lemma segCmp_lt_of_eq_of_lt : ∀ (a b c : List Tok),
    segCmp a b = 0 → segCmp b c < 0 → segCmp a c < 0 := by
  intro a
  induction a with
  | nil =>
    intro b c h1 h2
    cases b with
    | nil => exact h2
    | cons y ys =>
      rw [segCmp_nil_cons] at h1
      split_ifs at h1 <;> omega
  | cons x xs ih =>
    intro b c h1 h2
    cases b with
    | nil =>
      rw [segCmp_cons_nil] at h1
      split_ifs at h1 <;> omega
    | cons y ys =>
      rw [segCmp_cons] at h1
      by_cases hxy : tokCmp x y = 0
      · rw [if_pos hxy] at h1
        cases c with
        | nil =>
          rw [segCmp_cons_nil] at h2 ⊢
          have hcl := tokCmp_eq_class hxy
          rw [hcl]
          exact h2
        | cons z zs =>
          rw [segCmp_cons] at h2 ⊢
          by_cases hyz : tokCmp y z = 0
          · rw [if_pos hyz] at h2
            rw [if_pos (tokCmp_eq_trans hxy hyz)]
            exact ih ys zs h1 h2
          · rw [if_neg hyz] at h2
            have hxz : tokCmp x z < 0 := tokCmp_lt_of_eq_of_lt hxy h2
            rw [if_neg (by omega)]
            exact hxz
      · rw [if_neg hxy] at h1; exact absurd h1 hxy

lemma segCmp_lt_trans : ∀ (a b c : List Tok),
    segCmp a b < 0 → segCmp b c < 0 → segCmp a c < 0 := by
  intro a
  induction a with
  | nil =>
    intro b c h1 h2
    cases b with
    | nil => simp at h1
    | cons y ys =>
      rw [segCmp_nil_cons] at h1
      have hy : y.2 ≠ ALPHA := by
        intro hA; rw [if_pos hA] at h1; omega
      cases c with
      | nil =>
        rw [segCmp_cons_nil] at h2
        have : y.2 = ALPHA := by
          by_contra hA
          rw [if_neg hA] at h2; omega
        exact absurd this hy
      | cons z zs =>
        have hyz : tokCmp y z ≤ 0 := segCmp_le_head (le_of_lt h2)
        have hz : z.2 ≠ ALPHA := by
          intro hA
          have hrz : classRank z.2 = 0 := by rw [hA]; rfl
          have := tokCmp_le_rank hyz
          rw [hrz] at this
          exact hy (classRank_eq_zero.mp (Nat.le_zero.mp this))
        rw [segCmp_nil_cons, if_neg hz]
        decide
  | cons x xs ih =>
    intro b c h1 h2
    cases b with
    | nil =>
      rw [segCmp_cons_nil] at h1
      have hx : x.2 = ALPHA := by
        by_contra hA
        rw [if_neg hA] at h1; omega
      cases c with
      | nil => rw [segCmp_cons_nil, if_pos hx]; decide
      | cons z zs =>
        rw [segCmp_nil_cons] at h2
        have hz : z.2 ≠ ALPHA := by
          intro hA; rw [if_pos hA] at h2; omega
        have hxz : tokCmp x z < 0 := by
          have hne : x.2 ≠ z.2 := by rw [hx]; exact fun h => hz h.symm
          rw [tokCmp, if_neg hne, cmpNat_lt_iff, hx]
          rcases z with ⟨q, t⟩
          cases t
          · show classRank ALPHA < classRank DIGIT; decide
          · exact absurd rfl hz
          · show classRank ALPHA < classRank OTHER; decide
        rw [segCmp_cons, if_neg (by omega)]
        exact hxz
    | cons y ys =>
      cases c with
      | nil =>
        rw [segCmp_cons_nil] at h2
        have hy : y.2 = ALPHA := by
          by_contra hA
          rw [if_neg hA] at h2; omega
        have hxy : tokCmp x y ≤ 0 := segCmp_le_head (le_of_lt h1)
        have hx : x.2 = ALPHA := by
          have := tokCmp_le_rank hxy
          rw [hy] at this
          exact classRank_eq_zero.mp (Nat.le_zero.mp (by simpa [classRank] using this))
        rw [segCmp_cons_nil, if_pos hx]
        decide
      | cons z zs =>
        rw [segCmp_cons] at h1 h2 ⊢
        by_cases hxy : tokCmp x y = 0
        · rw [if_pos hxy] at h1
          by_cases hyz : tokCmp y z = 0
          · rw [if_pos hyz] at h2
            rw [if_pos (tokCmp_eq_trans hxy hyz)]
            exact ih ys zs h1 h2
          · rw [if_neg hyz] at h2
            have hxz : tokCmp x z < 0 := tokCmp_lt_of_eq_of_lt hxy h2
            rw [if_neg (by omega)]
            exact hxz
        · rw [if_neg hxy] at h1
          by_cases hyz : tokCmp y z = 0
          · rw [if_pos hyz] at h2
            have hxz : tokCmp x z < 0 := tokCmp_lt_of_lt_of_eq h1 hyz
            rw [if_neg (by omega)]
            exact hxz
          · rw [if_neg hyz] at h2
            have hxz : tokCmp x z < 0 := tokCmp_lt_trans h1 h2
            rw [if_neg (by omega)]
            exact hxz

lemma segCmp_lt_of_lt_of_le {a b c : List Tok}
    (h1 : segCmp a b < 0) (h2 : segCmp b c ≤ 0) : segCmp a c < 0 := by
  rcases lt_or_eq_of_le h2 with h | h
  · exact segCmp_lt_trans a b c h1 h
  · exact segCmp_lt_of_lt_of_eq a b c h1 h

lemma segCmp_lt_of_le_of_lt {a b c : List Tok}
    (h1 : segCmp a b ≤ 0) (h2 : segCmp b c < 0) : segCmp a c < 0 := by
  rcases lt_or_eq_of_le h1 with h | h
  · exact segCmp_lt_trans a b c h h2
  · exact segCmp_lt_of_eq_of_lt a b c h h2

lemma segCmp_le_trans {a b c : List Tok}
    (h1 : segCmp a b ≤ 0) (h2 : segCmp b c ≤ 0) : segCmp a c ≤ 0 := by
  rcases lt_or_eq_of_le h1 with h | h
  · exact le_of_lt (segCmp_lt_of_lt_of_le h h2)
  · rcases lt_or_eq_of_le h2 with h' | h'
    · exact le_of_lt (segCmp_lt_of_eq_of_lt a b c h h')
    · exact le_of_eq (segCmp_eq_trans a b c h h')

lemma rpmvercmp_refl (v : List Char) : rpmvercmp v v = 0 := segCmp_refl _

lemma rpmvercmp_neg (a b : List Char) : rpmvercmp a b = -rpmvercmp b a :=
  segCmp_neg _ _

lemma rpmvercmp_eq_trans {a b c : List Char}
    (h1 : rpmvercmp a b = 0) (h2 : rpmvercmp b c = 0) : rpmvercmp a c = 0 :=
  segCmp_eq_trans _ _ _ h1 h2

lemma rpmvercmp_lt_of_lt_of_le {a b c : List Char}
    (h1 : rpmvercmp a b < 0) (h2 : rpmvercmp b c ≤ 0) : rpmvercmp a c < 0 :=
  segCmp_lt_of_lt_of_le h1 h2

lemma rpmvercmp_lt_of_le_of_lt {a b c : List Char}
    (h1 : rpmvercmp a b ≤ 0) (h2 : rpmvercmp b c < 0) : rpmvercmp a c < 0 :=
  segCmp_lt_of_le_of_lt h1 h2

lemma rpmvercmp_le_trans {a b c : List Char}
    (h1 : rpmvercmp a b ≤ 0) (h2 : rpmvercmp b c ≤ 0) : rpmvercmp a c ≤ 0 :=
  segCmp_le_trans h1 h2

end ComparatorAlgebra

section VercmpStructure

/-- Release comparison of `Version.vercmp`: performed only when both
sides carry a release, otherwise the (zero) upstream result stands. -/
def relCmp (r1 r2 : Option (List Char)) : Int :=
  match r1, r2 with
  | some a, some b => rpmvercmp a b
  | _, _ => 0

/-- Lexicographic chaining: a nonzero first result short-circuits. -/
def thenCmp (i j : Int) : Int :=
  if i = 0 then j else i

/-- The component comparison of `Version.vercmp` on two `evr` triples. -/
def evrCmp (a b : EVR) : Int :=
  thenCmp (rpmvercmp a.e b.e) (thenCmp (rpmvercmp a.v b.v) (relCmp a.r b.r))

lemma evrCmp_refl (a : EVR) : evrCmp a a = 0 := by
  have hr : relCmp a.r a.r = 0 := by
    rcases a.r with _ | x <;> simp [relCmp, rpmvercmp_refl]
  simp [evrCmp, thenCmp, rpmvercmp_refl, hr]

/-- Both fast paths of `Version.vercmp` agree with the component
comparison, so the whole function is the lexicographic chain. -/
lemma vercmpL_eq_evrCmp (s1 s2 : List Char) :
    vercmpL s1 s2 = evrCmp (parseEVR s1) (parseEVR s2) := by
  unfold vercmpL
  by_cases hs : s1 = s2
  · rw [if_pos hs, hs, evrCmp_refl]
  · rw [if_neg hs]
    by_cases hv : parseEVR s1 = parseEVR s2
    · rw [if_pos hv, hv, evrCmp_refl]
    · rw [if_neg hv]
      unfold evrCmp thenCmp
      by_cases h1 : rpmvercmp (parseEVR s1).e (parseEVR s2).e = 0
      · rw [if_pos h1, if_pos h1]
        by_cases h2 : rpmvercmp (parseEVR s1).v (parseEVR s2).v = 0
        · rw [if_pos h2, if_pos h2]
          rcases hr1 : (parseEVR s1).r with _ | x <;>
            rcases hr2 : (parseEVR s2).r with _ | y <;>
              simp [relCmp, h2]
        · rw [if_neg h2, if_neg h2]
      · rw [if_neg h1, if_neg h1]

lemma vercmp_eq_evrCmp (a b : String) :
    vercmp a b = evrCmp (parseEVR a.toList) (parseEVR b.toList) :=
  vercmpL_eq_evrCmp _ _

lemma relCmp_neg (r1 r2 : Option (List Char)) : relCmp r1 r2 = -relCmp r2 r1 := by
  rcases r1 with _ | x <;> rcases r2 with _ | y
  · rfl
  · rfl
  · rfl
  · exact rpmvercmp_neg x y

lemma evrCmp_neg (a b : EVR) : evrCmp a b = -evrCmp b a := by
  unfold evrCmp thenCmp
  by_cases h1 : rpmvercmp a.e b.e = 0
  · have h1' : rpmvercmp b.e a.e = 0 := by rw [rpmvercmp_neg, h1]; rfl
    rw [if_pos h1, if_pos h1']
    by_cases h2 : rpmvercmp a.v b.v = 0
    · have h2' : rpmvercmp b.v a.v = 0 := by rw [rpmvercmp_neg, h2]; rfl
      rw [if_pos h2, if_pos h2']
      exact relCmp_neg _ _
    · have h2' : rpmvercmp b.v a.v ≠ 0 := by
        intro hz; exact h2 (by rw [rpmvercmp_neg, hz]; rfl)
      rw [if_neg h2, if_neg h2']
      exact rpmvercmp_neg _ _
  · have h1' : rpmvercmp b.e a.e ≠ 0 := by
      intro hz; exact h1 (by rw [rpmvercmp_neg, hz]; rfl)
    rw [if_neg h1, if_neg h1']
    exact rpmvercmp_neg _ _

lemma thenCmp_nonpos {i j : Int} (h : thenCmp i j ≤ 0) :
    i < 0 ∨ (i = 0 ∧ j ≤ 0) := by
  unfold thenCmp at h
  by_cases hi : i = 0
  · rw [if_pos hi] at h; exact Or.inr ⟨hi, h⟩
  · rw [if_neg hi] at h; exact Or.inl (lt_of_le_of_ne h hi)

lemma thenCmp_of_lt {i : Int} (j : Int) (h : i < 0) : thenCmp i j = i := by
  unfold thenCmp; rw [if_neg (by omega)]

lemma thenCmp_of_eq {i : Int} (j : Int) (h : i = 0) : thenCmp i j = j := by
  unfold thenCmp; rw [if_pos h]

end VercmpStructure

section Claim4

/-- C4: for all version strings `a`, `b`, `vercmp(a,b) = -vercmp(b,a)`,
and `vercmp(a,a) = 0` (in particular via the fast path on identical
source strings). -/
theorem vercmp_antisym_refl :
    (∀ a b : String, vercmp a b = -vercmp b a) ∧ (∀ a : String, vercmp a a = 0) := by
  constructor
  · intro a b
    rw [vercmp_eq_evrCmp, vercmp_eq_evrCmp]
    exact evrCmp_neg _ _
  · intro a
    unfold vercmp vercmpL
    rw [if_pos rfl]

end Claim4

section Claim1

/-- C1 counterexample: the release rule breaks transitivity of
`vercmp` as universally stated — `vercmp("1.0-2","1.0") ≤ 0` and
`vercmp("1.0","1.0-1") ≤ 0`, yet `vercmp("1.0-2","1.0-1") = 1 > 0`. -/
theorem vercmp_trans_counterexample :
    vercmp "1.0-2" "1.0" ≤ 0 ∧ vercmp "1.0" "1.0-1" ≤ 0 ∧
      ¬ vercmp "1.0-2" "1.0-1" ≤ 0 := by
  refine ⟨by decide, by decide, by decide⟩

/-- C1 as amended: transitivity of `vercmp` holds on any three version
strings that uniformly carry a release component, or uniformly lack
one (the mixed case of the counterexample being the only obstruction). -/
theorem vercmp_trans_release_uniform (a b c : String)
    (hpres :
      ((parseEVR a.toList).r ≠ none ∧ (parseEVR b.toList).r ≠ none ∧
        (parseEVR c.toList).r ≠ none) ∨
      ((parseEVR a.toList).r = none ∧ (parseEVR b.toList).r = none ∧
        (parseEVR c.toList).r = none))
    (h1 : vercmp a b ≤ 0) (h2 : vercmp b c ≤ 0) : vercmp a c ≤ 0 := by
  rw [vercmp_eq_evrCmp] at h1 h2 ⊢
  set A := parseEVR a.toList with hA
  set B := parseEVR b.toList with hB
  set C := parseEVR c.toList with hC
  have hrel : relCmp A.r B.r ≤ 0 → relCmp B.r C.r ≤ 0 → relCmp A.r C.r ≤ 0 := by
    rcases hpres with ⟨ha, hb, hc⟩ | ⟨ha, hb, hc⟩
    · obtain ⟨ra, hra⟩ := Option.ne_none_iff_exists'.mp ha
      obtain ⟨rb, hrb⟩ := Option.ne_none_iff_exists'.mp hb
      obtain ⟨rc, hrc⟩ := Option.ne_none_iff_exists'.mp hc
      rw [hra, hrb, hrc]
      exact fun x y => rpmvercmp_le_trans x y
    · rw [ha, hb, hc]
      intro _ _
      exact le_refl 0
  unfold evrCmp at h1 h2 ⊢
  rcases thenCmp_nonpos h1 with he1 | ⟨he1, h1'⟩
  · rcases thenCmp_nonpos h2 with he2 | ⟨he2, _⟩
    · rw [thenCmp_of_lt _ (rpmvercmp_lt_of_lt_of_le he1 (le_of_lt he2))]
      exact le_of_lt (rpmvercmp_lt_of_lt_of_le he1 (le_of_lt he2))
    · rw [thenCmp_of_lt _ (rpmvercmp_lt_of_lt_of_le he1 (le_of_eq he2))]
      exact le_of_lt (rpmvercmp_lt_of_lt_of_le he1 (le_of_eq he2))
  · rcases thenCmp_nonpos h2 with he2 | ⟨he2, h2'⟩
    · rw [thenCmp_of_lt _ (rpmvercmp_lt_of_le_of_lt (le_of_eq he1) he2)]
      exact le_of_lt (rpmvercmp_lt_of_le_of_lt (le_of_eq he1) he2)
    · rw [thenCmp_of_eq _ (rpmvercmp_eq_trans he1 he2)]
      rcases thenCmp_nonpos h1' with hv1 | ⟨hv1, h1''⟩
      · rcases thenCmp_nonpos h2' with hv2 | ⟨hv2, _⟩
        · rw [thenCmp_of_lt _ (rpmvercmp_lt_of_lt_of_le hv1 (le_of_lt hv2))]
          exact le_of_lt (rpmvercmp_lt_of_lt_of_le hv1 (le_of_lt hv2))
        · rw [thenCmp_of_lt _ (rpmvercmp_lt_of_lt_of_le hv1 (le_of_eq hv2))]
          exact le_of_lt (rpmvercmp_lt_of_lt_of_le hv1 (le_of_eq hv2))
      · rcases thenCmp_nonpos h2' with hv2 | ⟨hv2, h2''⟩
        · rw [thenCmp_of_lt _ (rpmvercmp_lt_of_le_of_lt (le_of_eq hv1) hv2)]
          exact le_of_lt (rpmvercmp_lt_of_le_of_lt (le_of_eq hv1) hv2)
        · rw [thenCmp_of_eq _ (rpmvercmp_eq_trans hv1 hv2)]
          exact hrel h1'' h2''

/-- Witness for the amended C1 at concrete inputs. -/
theorem vercmp_trans_release_uniform_witness :
    vercmp "1.5.0-1" "1.5.1-1" ≤ 0 :=
  vercmp_trans_release_uniform "1.5.0-1" "1.5.0-2" "1.5.1-1"
    (Or.inl ⟨by decide, by decide, by decide⟩) (by decide) (by decide)

end Claim1

section Claim2

/-- C2: whenever epochs and upstreams compare equal, `vercmp` is the
release comparison when both releases are present and `0` when either
is absent; in particular `vercmp("1.5","1.5-1") = 0`,
`vercmp("1.1-1","1.1") = 0` and `vercmp("1.0-1","1.1") = -1`. -/
theorem vercmp_release_only_when_both :
    (∀ s1 s2 : String,
      rpmvercmp (parseEVR s1.toList).e (parseEVR s2.toList).e = 0 →
      rpmvercmp (parseEVR s1.toList).v (parseEVR s2.toList).v = 0 →
      vercmp s1 s2 =
        (match (parseEVR s1.toList).r, (parseEVR s2.toList).r with
         | some r1, some r2 => rpmvercmp r1 r2
         | _, _ => 0)) ∧
    vercmp "1.5" "1.5-1" = 0 ∧ vercmp "1.1-1" "1.1" = 0 ∧
      vercmp "1.0-1" "1.1" = -1 := by
  refine ⟨?_, by decide, by decide, by decide⟩
  intro s1 s2 he hv
  rw [vercmp_eq_evrCmp]
  unfold evrCmp
  rw [thenCmp_of_eq _ he, thenCmp_of_eq _ hv]
  rfl

/-- Witness for C2's universal part at concrete inputs. -/
theorem vercmp_release_only_when_both_witness :
    vercmp "1.5.0-1" "1.5.0-2" = -1 := by
  have h := vercmp_release_only_when_both.1 "1.5.0-1" "1.5.0-2"
    (by decide) (by decide)
  rw [h]
  decide

end Claim2

section ListHelpers

lemma dropWhile_append_split (p : Char → Bool) : ∀ (xs ys : List Char),
    List.dropWhile p (xs ++ ys) =
      if List.dropWhile p xs = [] then List.dropWhile p ys
      else List.dropWhile p xs ++ ys := by
  intro xs
  induction xs with
  | nil => intro ys; simp
  | cons c xs ih =>
    intro ys
    by_cases hc : p c
    · simp only [List.cons_append, List.dropWhile_cons, hc, if_true, ih]
    · simp only [List.cons_append, List.dropWhile_cons, hc, if_false]
      simp

lemma dropWhile_append_all {p : Char → Bool} : ∀ (xs ys : List Char),
    (∀ c ∈ xs, p c) → List.dropWhile p (xs ++ ys) = List.dropWhile p ys := by
  intro xs
  induction xs with
  | nil => intro ys _; rfl
  | cons c xs ih =>
    intro ys h
    simp only [List.cons_append, List.dropWhile_cons, h c (by simp), if_true]
    exact ih ys (fun d hd => h d (by simp [hd]))

lemma takeWhile_append_all {p : Char → Bool} : ∀ (xs ys : List Char),
    (∀ c ∈ xs, p c) → List.takeWhile p (xs ++ ys) = xs ++ List.takeWhile p ys := by
  intro xs
  induction xs with
  | nil => intro ys _; rfl
  | cons c xs ih =>
    intro ys h
    simp only [List.cons_append, List.takeWhile_cons, h c (by simp), if_true]
    rw [ih ys (fun d hd => h d (by simp [hd]))]

lemma dropWhile_eq_nil_of_all {p : Char → Bool} : ∀ (xs : List Char),
    (∀ c ∈ xs, p c) → List.dropWhile p xs = [] := by
  intro xs h
  have := dropWhile_append_all xs [] h
  simpa using this

lemma mem_of_mem_dropWhile {p : Char → Bool} : ∀ {xs : List Char} {c : Char},
    c ∈ List.dropWhile p xs → c ∈ xs := by
  intro xs
  induction xs with
  | nil => intro c h; simp [List.dropWhile] at h
  | cons d xs ih =>
    intro c h
    rw [List.dropWhile_cons] at h
    by_cases hd : p d
    · rw [if_pos hd] at h; exact List.mem_cons_of_mem d (ih h)
    · rw [if_neg hd] at h; exact h

lemma head_dropWhile_false {p : Char → Bool} : ∀ {xs : List Char} {c : Char} {rest : List Char},
    List.dropWhile p xs = c :: rest → p c = false := by
  intro xs
  induction xs with
  | nil => intro c rest h; simp [List.dropWhile] at h
  | cons d xs ih =>
    intro c rest h
    rw [List.dropWhile_cons] at h
    by_cases hd : p d
    · rw [if_pos hd] at h; exact ih h
    · rw [if_neg hd] at h
      cases h
      simpa using hd

lemma mem_takeWhile_pred {p : Char → Bool} : ∀ {xs : List Char} {c : Char},
    c ∈ List.takeWhile p xs → p c := by
  intro xs
  induction xs with
  | nil => intro c h; simp [List.takeWhile] at h
  | cons d xs ih =>
    intro c h
    rw [List.takeWhile_cons] at h
    by_cases hd : p d
    · rw [if_pos hd] at h
      rcases List.mem_cons.mp h with h | h
      · subst h; exact hd
      · exact ih h
    · rw [if_neg hd] at h; simp at h

end ListHelpers

section Claim3

/-- Modelled from the spec: the lock-step walk of `compareSegments` as
§4.1 words it — when one stream is exhausted the present side is
greater unless its current token is ALPHA; for distinct classes DIGIT
wins over any class and OTHER wins over ALPHA; for equal classes OTHER
compares by length only, DIGIT as arbitrary-precision integers with
leading zeros stripped before comparison, ALPHA lexicographically; the
first nonzero pair decides, exhausting both streams gives 0. -/
def specSegWalk : List Tok → List Tok → Int
  | [], [] => 0
  | [], y :: _ => if y.2 = ALPHA then 1 else -1
  | x :: _, [] => if x.2 = ALPHA then -1 else 1
  | x :: xs, y :: ys =>
    if x.2 ≠ y.2 then
      if x.2 = DIGIT then 1
      else if y.2 = DIGIT then -1
      else if x.2 = OTHER then 1
      else -1
    else
      let step :=
        match x.2 with
        | OTHER => cmpNat x.1.length y.1.length
        | DIGIT => cmpNat (digitsToNat (lstrip0 x.1)) (digitsToNat (lstrip0 y.1))
        | ALPHA => cmpChars x.1 y.1
      if step ≠ 0 then step else specSegWalk xs ys

/-- Stripping leading zeros does not change the numeric value. -/
lemma digitsToNat_lstrip0 : ∀ (p : List Char), digitsToNat (lstrip0 p) = digitsToNat p := by
  intro p
  induction p with
  | nil => rfl
  | cons c p ih =>
    by_cases hc : c = '0'
    · subst hc
      have h1 : lstrip0 ('0' :: p) = lstrip0 p := by
        simp [lstrip0, List.dropWhile_cons]
      have h2 : digitsToNat ('0' :: p) = digitsToNat p := by
        simp [digitsToNat, List.foldl_cons]
      rw [h1, h2, ih]
    · have h1 : lstrip0 (c :: p) = c :: p := by
        simp [lstrip0, List.dropWhile_cons, hc]
      rw [h1]

lemma segCmp_eq_specSegWalk : ∀ (a b : List Tok), segCmp a b = specSegWalk a b := by
  intro a
  induction a with
  | nil =>
    intro b
    cases b with
    | nil => rfl
    | cons y ys => rcases y with ⟨q, t⟩; rfl
  | cons x xs ih =>
    intro b
    cases b with
    | nil => rcases x with ⟨p, t⟩; rfl
    | cons y ys =>
      rcases x with ⟨p, s⟩
      rcases y with ⟨q, t⟩
      cases s <;> cases t <;>
        simp [segCmp, specSegWalk, digitsToNat_lstrip0, ih ys]

/-- C3: `_rpmvercmp` is exactly the specified lock-step walk over the
two token streams (`vercmp("1.0rc","1.0") = -1`,
`vercmp("2.0","2_0") = 0` among its consequences). -/
theorem rpmvercmp_tokenwalk :
    (∀ v1 v2 : List Char,
      rpmvercmp v1 v2 = specSegWalk (parseTokens v1) (parseTokens v2)) ∧
    vercmp "1.0rc" "1.0" = -1 ∧ vercmp "2.0" "2_0" = 0 :=
  ⟨fun v1 v2 => segCmp_eq_specSegWalk _ _, by decide, by decide⟩

end Claim3

section Claim5

lemma rsplitDash_no_dash (v : List Char) (h : '-' ∉ v) : rsplitDash v = (v, none) := by
  have hall : ∀ c ∈ v.reverse, (fun c => decide (c ≠ '-')) c := by
    intro c hc
    simp only [decide_eq_true_eq]
    intro he
    subst he
    exact h (List.mem_reverse.mp hc)
  have hd : List.dropWhile (fun c => decide (c ≠ '-')) v.reverse = [] :=
    dropWhile_eq_nil_of_all _ hall
  simp only [rsplitDash]
  rw [hd]

lemma rsplitDash_split (u r : List Char) (h : '-' ∉ r) :
    rsplitDash (u ++ '-' :: r) = (u, some r) := by
  have hrev : (u ++ '-' :: r).reverse = r.reverse ++ '-' :: u.reverse := by
    simp
  have hall : ∀ c ∈ r.reverse, (fun c => decide (c ≠ '-')) c := by
    intro c hc
    simp only [decide_eq_true_eq]
    intro he
    subst he
    exact h (List.mem_reverse.mp hc)
  have hd : List.dropWhile (fun c => decide (c ≠ '-')) (u ++ '-' :: r).reverse
      = '-' :: u.reverse := by
    rw [hrev, dropWhile_append_all _ _ hall]
    simp [List.dropWhile_cons]
  have ht : List.takeWhile (fun c => decide (c ≠ '-')) (u ++ '-' :: r).reverse
      = r.reverse := by
    rw [hrev, takeWhile_append_all _ _ hall]
    simp [List.takeWhile_cons]
  simp only [rsplitDash]
  rw [hd, ht]
  simp

lemma rsplitDash_rel_no_dash {v r : List Char}
    (h : (rsplitDash v).2 = some r) : '-' ∉ r := by
  simp only [rsplitDash] at h
  rcases hd : List.dropWhile (fun c => decide (c ≠ '-')) v.reverse with _ | ⟨c, pre⟩
  · rw [hd] at h; simp at h
  · rw [hd] at h
    simp only [Option.some.injEq] at h
    intro hmem
    have hmem' : '-' ∈ List.takeWhile (fun c => decide (c ≠ '-')) v.reverse := by
      rw [← h] at hmem
      exact List.mem_reverse.mp hmem
    have := mem_takeWhile_pred hmem'
    simp at this

/-- The epoch branch of `Version.__init__` depends only on the first
non-digit character. -/
lemma parseEVR_else (s : List Char)
    (h : ∀ c rest, s.dropWhile Char.isDigit = c :: rest → ¬(c = ':' ∨ c = '~')) :
    parseEVR s = ⟨['0'], (rsplitDash s).1, (rsplitDash s).2⟩ := by
  unfold parseEVR
  rcases hd : s.dropWhile Char.isDigit with _ | ⟨c, rest⟩
  · rfl
  · dsimp only
    rw [if_neg (h c rest hd)]

/-- C5: version-string parsing.  When the string decomposes as a digit
prefix followed by a first non-digit character: that character being
an accepted epoch separator (`:` or `~`) makes the prefix the epoch
and the rest the remainder, otherwise the epoch is `"0"` and the whole
string is the remainder; an all-digit string has epoch `"0"` and no
release; the remainder splits at the last `-` into upstream and
release, absent without `-`; and `vercmp("0:1.0","1.0") = 0`. -/
theorem version_string_parsing :
    (∀ (pre : List Char) (c : Char) (rest : List Char),
      (∀ d ∈ pre, d.isDigit) → ¬ c.isDigit →
      ((c = ':' ∨ c = '~') →
        parseEVR (pre ++ c :: rest) =
          ⟨pre, (rsplitDash rest).1, (rsplitDash rest).2⟩) ∧
      (¬(c = ':' ∨ c = '~') →
        parseEVR (pre ++ c :: rest) =
          ⟨['0'], (rsplitDash (pre ++ c :: rest)).1,
            (rsplitDash (pre ++ c :: rest)).2⟩)) ∧
    (∀ s : List Char, (∀ d ∈ s, d.isDigit) → parseEVR s = ⟨['0'], s, none⟩) ∧
    (∀ u r : List Char, '-' ∉ r → rsplitDash (u ++ '-' :: r) = (u, some r)) ∧
    (∀ v : List Char, '-' ∉ v → rsplitDash v = (v, none)) ∧
    vercmp "0:1.0" "1.0" = 0 := by
  refine ⟨?_, ?_, fun u r h => rsplitDash_split u r h,
    fun v h => rsplitDash_no_dash v h, by decide⟩
  · intro pre c rest hpre hc
    have hdrop : (pre ++ c :: rest).dropWhile Char.isDigit = c :: rest := by
      rw [dropWhile_append_all pre (c :: rest) hpre]
      simp [List.dropWhile_cons, hc]
    have htake : (pre ++ c :: rest).takeWhile Char.isDigit = pre := by
      rw [takeWhile_append_all pre (c :: rest) hpre]
      simp [List.takeWhile_cons, hc]
    constructor
    · intro hsep
      unfold parseEVR
      rw [hdrop]
      dsimp only
      rw [if_pos hsep, htake]
    · intro hsep
      unfold parseEVR
      rw [hdrop]
      dsimp only
      rw [if_neg hsep]
  · intro s hall
    have hdrop : s.dropWhile Char.isDigit = [] :=
      dropWhile_eq_nil_of_all s (by intro c hc; exact hall c hc)
    have hnd : '-' ∉ s := by
      intro hmem
      have := hall '-' hmem
      simp at this
    unfold parseEVR
    rw [hdrop]
    dsimp only
    rw [rsplitDash_no_dash s hnd]

/-- Witness for C5 at a concrete input. -/
theorem version_string_parsing_witness :
    parseEVR ("1:2.0-3".toList) = ⟨['1'], "2.0".toList, some ['3']⟩ := by
  have e : "1:2.0-3".toList = ['1'] ++ ':' :: "2.0-3".toList := by decide
  have h := (version_string_parsing.1 ['1'] ':' "2.0-3".toList
    (by decide) (by decide)).1 (by decide)
  rw [e, h]
  decide

end Claim5

section Claim6

lemma lstrip0_head_ne {s : List Char} {c : Char} {rest : List Char}
    (h : lstrip0 s = c :: rest) : c ≠ '0' := by
  have := head_dropWhile_false h
  simpa using this

lemma lstrip0_idem (s : List Char) : lstrip0 (lstrip0 s) = lstrip0 s := by
  rcases hd : lstrip0 s with _ | ⟨c, rest⟩
  · rfl
  · have hc : c ≠ '0' := lstrip0_head_ne hd
    simp [lstrip0, List.dropWhile_cons, hc]

lemma lstrip0_ne_zero_singleton (s : List Char) : lstrip0 s ≠ ['0'] :=
  fun h => lstrip0_head_ne h rfl

lemma canonDigits_fix (s : List Char) : canonDigits (canonDigits s) = canonDigits s := by
  unfold canonDigits
  by_cases h : lstrip0 s = []
  · rw [if_pos h, if_pos (by decide)]
  · rw [if_neg h, lstrip0_idem, if_neg h]

lemma mem_lstrip0 {s : List Char} {c : Char} (h : c ∈ lstrip0 s) : c ∈ s :=
  mem_of_mem_dropWhile h

lemma mem_canonDigits {s : List Char} {c : Char} (h : c ∈ canonDigits s) :
    c ∈ s ∨ c = '0' := by
  unfold canonDigits at h
  by_cases he : lstrip0 s = []
  · rw [if_pos he] at h
    simp at h
    exact Or.inr h
  · rw [if_neg he] at h
    exact Or.inl (mem_lstrip0 h)

lemma canonDigits_ne_nil (s : List Char) : canonDigits s ≠ [] := by
  unfold canonDigits
  split_ifs with h
  · simp
  · exact h

lemma getType_eq_digit {c : Char} : getType c = DIGIT ↔ c.isDigit := by
  unfold getType
  split_ifs with h1 h2
  · simp [h1]
  · simp [h1]
  · simp [h1]

lemma getType_ne_special {c : Char} {t : ExtentType} (h : getType c = t)
    (ht : t ≠ OTHER) : c ≠ ':' ∧ c ≠ '~' ∧ c ≠ '-' := by
  refine ⟨?_, ?_, ?_⟩ <;> intro he <;> subst he <;>
    exact ht (by rw [← h]; decide)

lemma canonPiece_wf {x : Tok} (hne : x.1 ≠ []) (hall : ∀ c ∈ x.1, getType c = x.2) :
    canonPiece x ≠ [] ∧ ∀ c ∈ canonPiece x, getType c = x.2 := by
  rcases x with ⟨p, t⟩
  cases t
  · constructor
    · exact canonDigits_ne_nil p
    · intro c hc
      rcases mem_canonDigits hc with h | h
      · exact hall c h
      · subst h
        show getType '0' = DIGIT
        decide
  · exact ⟨hne, hall⟩
  · constructor
    · simp [canonPiece]
    · intro c hc
      simp only [canonPiece, List.mem_singleton] at hc
      subst hc
      show getType '.' = OTHER
      decide

/-- The canonical image of a token stream. -/
def canonToks (l : List Tok) : List Tok :=
  l.map (fun x => (canonPiece x, x.2))

lemma foldl_append_pieces : ∀ (l : List Tok) (acc : List Char),
    l.foldl (fun acc x => acc ++ canonPiece x) acc = acc ++ flatFst (canonToks l) := by
  intro l
  induction l with
  | nil => intro acc; simp [canonToks]
  | cons x l ih =>
    intro acc
    simp only [List.foldl_cons, canonToks, List.map_cons, flatFst_cons]
    rw [ih (acc ++ canonPiece x)]
    simp [canonToks, List.append_assoc]

lemma canonUp_eq (u : List Char) : canonUp u = flatFst (canonToks (parseTokens u)) := by
  unfold canonUp
  rw [foldl_append_pieces]
  rfl

lemma canonToks_wf (u : List Char) :
    (∀ x ∈ canonToks (parseTokens u), x.1 ≠ [] ∧ ∀ c ∈ x.1, getType c = x.2) ∧
    List.Chain' (fun a b : Tok => a.2 ≠ b.2) (canonToks (parseTokens u)) := by
  obtain ⟨h1, h2, _⟩ := parseTokens_inv u
  constructor
  · intro x hx
    simp only [canonToks, List.mem_map] at hx
    obtain ⟨y, hy, rfl⟩ := hx
    have hwy := h1 y hy
    exact canonPiece_wf hwy.1 hwy.2
  · rw [canonToks, List.chain'_map]
    exact h2

lemma parseTokens_canonUp (u : List Char) :
    parseTokens (canonUp u) = canonToks (parseTokens u) := by
  rw [canonUp_eq]
  exact parseTokens_flat _ (canonToks_wf u).1 (canonToks_wf u).2

lemma canonPiece_fix (x : Tok) : canonPiece (canonPiece x, x.2) = canonPiece x := by
  rcases x with ⟨p, t⟩
  cases t
  · exact canonDigits_fix p
  · rfl
  · rfl

lemma canonToks_fix (l : List Tok) : canonToks (canonToks l) = canonToks l := by
  unfold canonToks
  rw [List.map_map]
  apply List.map_congr_left
  intro x _
  simp only [Function.comp_apply]
  rw [canonPiece_fix]

lemma canonUp_fix (u : List Char) : canonUp (canonUp u) = canonUp u := by
  rw [canonUp_eq (canonUp u), parseTokens_canonUp, canonToks_fix, ← canonUp_eq]

lemma mem_flatFst {l : List Tok} {c : Char} : c ∈ flatFst l ↔ ∃ x ∈ l, c ∈ x.1 := by
  induction l with
  | nil =>
    constructor
    · intro h
      simp at h
    · rintro ⟨x, hx, -⟩
      simp at hx
  | cons x l ih =>
    simp only [flatFst_cons, List.mem_append, ih, List.mem_cons]
    constructor
    · rintro (h | ⟨y, hy, hc⟩)
      · exact ⟨x, Or.inl rfl, h⟩
      · exact ⟨y, Or.inr hy, hc⟩
    · rintro ⟨y, (rfl | hy), hc⟩
      · exact Or.inl hc
      · exact Or.inr ⟨y, hy, hc⟩

lemma canonUp_chars {u : List Char} {c : Char} (h : c ∈ canonUp u) :
    c.isDigit ∨ c = '.' ∨ getType c = ALPHA := by
  rw [canonUp_eq, mem_flatFst] at h
  obtain ⟨x, hx, hc⟩ := h
  simp only [canonToks, List.mem_map] at hx
  obtain ⟨y, hy, rfl⟩ := hx
  obtain ⟨hwf, -, -⟩ := parseTokens_inv u
  have hy' := hwf y hy
  rcases y with ⟨p, t⟩
  cases t
  · rcases mem_canonDigits hc with h | h
    · exact Or.inl (getType_eq_digit.mp (hy'.2 c h))
    · subst h; exact Or.inl (by decide)
  · exact Or.inr (Or.inr (hy'.2 c hc))
  · simp only [canonPiece, List.mem_singleton] at hc
    exact Or.inr (Or.inl hc)

lemma canonUp_no_special {u : List Char} {c : Char} (h : c ∈ canonUp u) :
    c ≠ ':' ∧ c ≠ '~' ∧ c ≠ '-' := by
  rcases canonUp_chars h with h | h | h
  · refine ⟨?_, ?_, ?_⟩ <;> intro he <;> subst he <;> exact absurd h (by decide)
  · subst h; exact ⟨by decide, by decide, by decide⟩
  · exact getType_ne_special h (by decide)

lemma parseEVR_e_digits (s : List Char) : ∀ c ∈ (parseEVR s).e, c.isDigit := by
  unfold parseEVR
  rcases hd : s.dropWhile Char.isDigit with _ | ⟨c0, rest⟩
  · intro c hc
    simp only [List.mem_singleton] at hc
    subst hc
    decide
  · dsimp only
    by_cases hsep : c0 = ':' ∨ c0 = '~'
    · rw [if_pos hsep]
      intro c hc
      exact mem_takeWhile_pred hc
    · rw [if_neg hsep]
      intro c hc
      simp only [List.mem_singleton] at hc
      subst hc
      decide

lemma parseEVR_r_no_dash {s x : List Char} (h : (parseEVR s).r = some x) :
    '-' ∉ x := by
  unfold parseEVR at h
  rcases hd : s.dropWhile Char.isDigit with _ | ⟨c0, rest⟩
  · rw [hd] at h
    exact rsplitDash_rel_no_dash h
  · rw [hd] at h
    dsimp only at h
    by_cases hsep : c0 = ':' ∨ c0 = '~'
    · rw [if_pos hsep] at h
      exact rsplitDash_rel_no_dash h
    · rw [if_neg hsep] at h
      exact rsplitDash_rel_no_dash h

lemma rsplitDash_canonical (u : List Char) (r : Option (List Char))
    (hr : ∀ x, r = some x → '-' ∉ x) :
    rsplitDash (canonUp u ++ relPart r) = (canonUp u, Option.map canonDigits r) := by
  rcases r with _ | x
  · simpa [relPart] using
      rsplitDash_no_dash (canonUp u) (fun hm => (canonUp_no_special hm).2.2 rfl)
  · have hnd : '-' ∉ canonDigits x := by
      intro hm
      rcases mem_canonDigits hm with h | h
      · exact hr x rfl h
      · exact absurd h (by decide)
    simpa [relPart] using rsplitDash_split (canonUp u) (canonDigits x) hnd

lemma parseEVR_canonical_noep (u : List Char) (r : Option (List Char))
    (hr : ∀ x, r = some x → '-' ∉ x) :
    parseEVR (canonUp u ++ relPart r) =
      ⟨['0'], canonUp u, Option.map canonDigits r⟩ := by
  have hmain := parseEVR_else (canonUp u ++ relPart r) ?_
  · rw [hmain, rsplitDash_canonical u r hr]
  · intro c rest hd
    rw [dropWhile_append_split] at hd
    by_cases h0 : List.dropWhile Char.isDigit (canonUp u) = []
    · rw [if_pos h0] at hd
      rcases r with _ | x
      · simp [relPart] at hd
      · have hrel : List.dropWhile Char.isDigit (relPart (some x)) =
            '-' :: canonDigits x := by
          simp [relPart, List.dropWhile_cons]
        rw [hrel] at hd
        injection hd with h1 _
        subst h1
        decide
    · rw [if_neg h0] at hd
      rcases hcu : List.dropWhile Char.isDigit (canonUp u) with _ | ⟨c0, rest0⟩
      · exact absurd hcu h0
      · rw [hcu] at hd
        injection hd with h1 _
        subst h1
        have hc0mem : c0 ∈ canonUp u :=
          mem_of_mem_dropWhile (hcu ▸ List.mem_cons_self c0 rest0)
        have hns := canonUp_no_special hc0mem
        rintro (he | he)
        · exact hns.1 he
        · exact hns.2.1 he

lemma parseEVR_canonical_ep (e u : List Char) (r : Option (List Char))
    (he : ∀ c ∈ e, c.isDigit) (hne : e ≠ ['0'])
    (hr : ∀ x, r = some x → '-' ∉ x) :
    parseEVR (epPart e ++ canonUp u ++ relPart r) =
      ⟨lstrip0 e, canonUp u, Option.map canonDigits r⟩ := by
  have hs : epPart e ++ canonUp u ++ relPart r =
      lstrip0 e ++ ':' :: (canonUp u ++ relPart r) := by
    rw [epPart, if_pos hne]
    simp
  rw [hs]
  have hdig : ∀ c ∈ lstrip0 e, Char.isDigit c := fun c hc => he c (mem_lstrip0 hc)
  have hdrop : (lstrip0 e ++ ':' :: (canonUp u ++ relPart r)).dropWhile Char.isDigit
      = ':' :: (canonUp u ++ relPart r) := by
    rw [dropWhile_append_all _ _ hdig]
    simp [List.dropWhile_cons]
  have htake : (lstrip0 e ++ ':' :: (canonUp u ++ relPart r)).takeWhile Char.isDigit
      = lstrip0 e := by
    rw [takeWhile_append_all _ _ hdig]
    simp [List.takeWhile_cons]
  unfold parseEVR
  rw [hdrop]
  dsimp only
  rw [if_pos (Or.inl rfl), htake, rsplitDash_canonical u r hr]

lemma relPart_map_fix (r : Option (List Char)) :
    relPart (Option.map canonDigits r) = relPart r := by
  rcases r with _ | x
  · rfl
  · simp only [Option.map_some', relPart]
    rw [canonDigits_fix]

lemma canonicalizeL_eq (s : List Char) :
    canonicalizeL s =
      epPart (parseEVR s).e ++ canonUp (parseEVR s).v ++ relPart (parseEVR s).r := rfl

lemma canonicalizeL_idem (s : List Char) :
    canonicalizeL (canonicalizeL s) = canonicalizeL s := by
  have he := parseEVR_e_digits s
  have hr : ∀ x, (parseEVR s).r = some x → '-' ∉ x :=
    fun x hx => parseEVR_r_no_dash hx
  by_cases h0 : (parseEVR s).e = ['0']
  · have h1 : canonicalizeL s = canonUp (parseEVR s).v ++ relPart (parseEVR s).r := by
      rw [canonicalizeL_eq, h0, epPart, if_neg (by simp)]
      rfl
    rw [h1, canonicalizeL_eq, parseEVR_canonical_noep _ _ hr]
    dsimp only
    rw [epPart, if_neg (by simp), canonUp_fix, relPart_map_fix]
    rfl
  · rw [canonicalizeL_eq s, canonicalizeL_eq,
      parseEVR_canonical_ep _ _ _ he h0 hr]
    dsimp only
    rw [canonUp_fix, relPart_map_fix]
    have hep : epPart (lstrip0 (parseEVR s).e) = epPart (parseEVR s).e := by
      rw [epPart, epPart, if_pos (lstrip0_ne_zero_singleton _), if_pos h0,
        lstrip0_idem]
    rw [hep]

/-- C6: canonicalization is idempotent — building a `Version` from a
string, canonicalizing, rebuilding from the canonical string and
canonicalizing again returns the same string. -/
theorem canonicalize_idempotent (v : String) :
    canonicalize (canonicalize v) = canonicalize v :=
  congrArg String.mk (canonicalizeL_idem v.toList)

end Claim6

section Claim10

/-- C10: tokenizer invariant — every token of `Version._parse` is
nonempty, all characters within a token share its class, adjacent
tokens have different classes, and the concatenation of all tokens is
the input string. -/
theorem tokenizer_invariant (s : List Char) :
    (∀ x ∈ parseTokens s, x.1 ≠ []) ∧
    (∀ x ∈ parseTokens s, ∀ c ∈ x.1, getType c = x.2) ∧
    List.Chain' (fun a b : Tok => a.2 ≠ b.2) (parseTokens s) ∧
    flatFst (parseTokens s) = s := by
  obtain ⟨h1, h2, h3⟩ := parseTokens_inv s
  exact ⟨fun x hx => (h1 x hx).1, fun x hx => (h1 x hx).2, h2, h3⟩

end Claim10

section Claim7

/-- The characters `_DEPENDRE` excludes from a dependency name
(`[^<>=]`). -/
def isOpChar (c : Char) : Bool :=
  c == '<' || c == '>' || c == '='

lemma isOpChar_iff {c : Char} : isOpChar c = true ↔ c = '<' ∨ c = '>' ∨ c = '=' := by
  simp [isOpChar, or_assoc]

/-- `d.rsplit(': ', 1)`: split at the rightmost occurrence of the
two-character separator `": "`; the recursion prefers an occurrence
further right. -/
def rsplitColonSpace : List Char → List Char × Option (List Char)
  | [] => ([], none)
  | c :: rest =>
    match rsplitColonSpace rest with
    | (pre, some post) => (c :: pre, some post)
    | (_, none) =>
      if c = ':' ∧ rest.head? = some ' ' then ([], some rest.tail)
      else (c :: rest, none)

/-- Whether `": "` occurs in the string. -/
def hasCS : List Char → Bool
  | [] => false
  | c :: rest => (decide (c = ':' ∧ rest.head? = some ' ')) || hasCS rest

/-- The operator alternation `<=|>=|<|>|=` of `_DEPENDRE`, tried in
that order at the head of the remainder. -/
def opSplit : List Char → Option (List Char × List Char)
  | [] => none
  | c :: v =>
    if c = '<' then
      if v.head? = some '=' then some (['<', '='], v.tail) else some (['<'], v)
    else if c = '>' then
      if v.head? = some '=' then some (['>', '='], v.tail) else some (['>'], v)
    else if c = '=' then some (['='], v)
    else none

/-- `_DEPENDRE.fullmatch(s)` for the pattern
`([^<>=]+)(?:(<=|>=|<|>|=)(.*))?`: the greedy operator-free prefix is
group 1 (the match fails when it is empty), the optional operator
token group 2, and `(.*)` — any characters except newline — group 3;
`fullmatch` must consume the whole string, so a newline in the operand
also fails. -/
def dependMatch (s : List Char) :
    Option (List Char × Option (List Char × List Char)) :=
  let name := s.takeWhile (fun c => !(isOpChar c))
  let rest := s.dropWhile (fun c => !(isOpChar c))
  if name = [] then none
  else
    match rest with
    | [] => some (name, none)
    | _ :: _ =>
      match opSplit rest with
      | some (op, v) => if '\n' ∈ v then none else some (name, some (op, v))
      | none => none

/-- `DependEntry` as produced from one dependency line: regex groups
1–3 plus the split-off description. -/
structure DependEntry where
  name : List Char
  mod : Option (List Char)
  version_str : Option (List Char)
  desc : Option (List Char)
deriving DecidableEq, Repr

/-- Parsing of one line of `_split_depends`: split off the description
at the rightmost `": "`, then apply `_DEPENDRE.fullmatch`; a failed
match (Python raises there) is `none`. -/
def splitDepLine (d : List Char) : Option DependEntry :=
  let e := rsplitColonSpace d
  match dependMatch e.1 with
  | none => none
  | some (n, rest) => some ⟨n, rest.map Prod.fst, rest.map Prod.snd, e.2⟩

lemma rsplitCS_no (s : List Char) (h : hasCS s = false) :
    rsplitColonSpace s = (s, none) := by
  induction s with
  | nil => rfl
  | cons c rest ih =>
    simp only [hasCS, Bool.or_eq_false_iff, decide_eq_false_iff_not] at h
    simp only [rsplitColonSpace]
    rw [ih h.2]
    simp only [if_neg h.1]

lemma rsplitCS_split (m desc : List Char) (h : hasCS desc = false) :
    rsplitColonSpace (m ++ ':' :: ' ' :: desc) = (m, some desc) := by
  induction m with
  | nil =>
    have hno : rsplitColonSpace (' ' :: desc) = (' ' :: desc, none) := by
      apply rsplitCS_no
      simp only [hasCS, Bool.or_eq_false_iff, decide_eq_false_iff_not]
      exact ⟨fun hh => by simp at hh, h⟩
    rw [List.nil_append, rsplitColonSpace.eq_def]
    dsimp only
    rw [hno]
    simp
  | cons a m ih =>
    rw [List.cons_append, rsplitColonSpace.eq_def]
    dsimp only
    rw [ih]

lemma rsplitCS_pre_mem : ∀ (s : List Char) {c : Char},
    c ∈ (rsplitColonSpace s).1 → c ∈ s := by
  intro s
  induction s with
  | nil => intro c h; simpa [rsplitColonSpace] using h
  | cons a rest ih =>
    intro c h
    rw [rsplitColonSpace.eq_def] at h
    dsimp only at h
    rcases hr : rsplitColonSpace rest with ⟨pre, o⟩
    rw [hr] at h
    rcases o with _ | post
    · dsimp only at h
      by_cases hcond : a = ':' ∧ rest.head? = some ' '
      · rw [if_pos hcond] at h
        simp at h
      · rw [if_neg hcond] at h
        exact h
    · dsimp only at h
      rcases List.mem_cons.mp h with h | h
      · subst h
        exact List.mem_cons_self _ _
      · exact List.mem_cons_of_mem a (ih (by rw [hr]; exact h))

lemma opSplit_of_op {c : Char} (v : List Char) (h : isOpChar c) :
    ∃ op v2, opSplit (c :: v) = some (op, v2) ∧ c :: v = op ++ v2 ∧
      op ∈ [['<', '='], ['>', '='], ['<'], ['>'], ['=']] ∧
      ∀ x ∈ v2, x ∈ v := by
  rcases isOpChar_iff.mp h with rfl | rfl | rfl
  · rcases v with _ | ⟨c2, v'⟩
    · exact ⟨['<'], [], by simp [opSplit], by simp, by simp, by simp⟩
    · by_cases h2 : c2 = '='
      · subst h2
        exact ⟨['<', '='], v', by simp [opSplit], by simp, by simp,
          fun x hx => by simp [hx]⟩
      · exact ⟨['<'], c2 :: v', by simp [opSplit, h2], by simp, by simp,
          fun x hx => hx⟩
  · rcases v with _ | ⟨c2, v'⟩
    · exact ⟨['>'], [], by simp [opSplit], by simp, by simp, by simp⟩
    · by_cases h2 : c2 = '='
      · subst h2
        exact ⟨['>', '='], v', by simp [opSplit], by simp, by simp,
          fun x hx => by simp [hx]⟩
      · exact ⟨['>'], c2 :: v', by simp [opSplit, h2], by simp, by simp,
          fun x hx => hx⟩
  · exact ⟨['='], v, by simp [opSplit], by simp, by simp, fun x hx => hx⟩

lemma dependMatch_none_iff {m : List Char} (hnl : '\n' ∉ m) :
    dependMatch m = none ↔ m.takeWhile (fun c => !(isOpChar c)) = [] := by
  simp only [dependMatch]
  by_cases hn : m.takeWhile (fun c => !(isOpChar c)) = []
  · simp [hn]
  · rw [if_neg hn]
    rcases hr : m.dropWhile (fun c => !(isOpChar c)) with _ | ⟨c, v⟩
    · simp [hn]
    · have hop : isOpChar c := by
        have := head_dropWhile_false hr
        simpa using this
      obtain ⟨op, v2, hsp, -, -, hmem⟩ := opSplit_of_op v hop
      rw [hsp]
      have hv2 : '\n' ∉ v2 := by
        intro hmm
        apply hnl
        apply mem_of_mem_dropWhile (p := fun c => !(isOpChar c))
        rw [hr]
        exact List.mem_cons_of_mem c (hmem _ hmm)
      simp [hv2, hn]

/-- The matched text of the optional operator/operand group. -/
def optText : Option (List Char × List Char) → List Char
  | some (op, v) => op ++ v
  | none => []

lemma dependMatch_some_spec {m n : List Char}
    {rest : Option (List Char × List Char)}
    (h : dependMatch m = some (n, rest)) :
    n ≠ [] ∧ (∀ c ∈ n, isOpChar c = false) ∧
    m = n ++ optText rest ∧
    (∀ op v, rest = some (op, v) →
      op ∈ [['<', '='], ['>', '='], ['<'], ['>'], ['=']]) := by
  simp only [dependMatch] at h
  by_cases hn : m.takeWhile (fun c => !(isOpChar c)) = []
  · simp [hn] at h
  · rw [if_neg hn] at h
    have hsplit := List.takeWhile_append_dropWhile
      (p := fun c => !(isOpChar c)) (l := m)
    rcases hr : m.dropWhile (fun c => !(isOpChar c)) with _ | ⟨c, v⟩
    · rw [hr] at h
      simp only [Option.some.injEq, Prod.mk.injEq] at h
      refine ⟨h.1 ▸ hn, ?_, ?_, ?_⟩
      · intro c hc
        rw [← h.1] at hc
        have := mem_takeWhile_pred hc
        simpa using this
      · rw [← h.1, ← h.2]
        rw [hr] at hsplit
        simpa [optText] using hsplit.symm
      · intro op v hov
        rw [← h.2] at hov
        simp at hov
    · rw [hr] at h
      have hop : isOpChar c := by
        have := head_dropWhile_false hr
        simpa using this
      obtain ⟨op, v2, hsp, hdecomp, hfive, -⟩ := opSplit_of_op v hop
      rw [hsp] at h
      dsimp only at h
      by_cases hnl2 : '\n' ∈ v2
      · simp [hnl2] at h
      · rw [if_neg hnl2] at h
        simp only [Option.some.injEq, Prod.mk.injEq] at h
        refine ⟨h.1 ▸ hn, ?_, ?_, ?_⟩
        · intro c hc
          rw [← h.1] at hc
          have := mem_takeWhile_pred hc
          simpa using this
        · rw [← h.1, ← h.2]
          rw [hr] at hsplit
          rw [hdecomp] at hsplit
          simpa [optText] using hsplit.symm
        · intro op' v' hov
          rw [← h.2] at hov
          simp only [Option.some.injEq, Prod.mk.injEq] at hov
          rw [← hov.1]
          exact hfive

/-- C7: dependency-line parsing — the description is split off at the
rightmost literal `": "`; of the remainder the longest prefix free of
`<`, `>`, `=` is the name and the parse fails exactly when it is
empty; a successful parse decomposes the remainder as name, one
operator among `<=`, `>=`, `<`, `>`, `=` (absent together with the
operand), and the operand; and
`"foo>=1.2: optional thing"` parses to
(`foo`, `>=`, `1.2`, `optional thing`). -/
theorem depend_line_parsing :
    (∀ m desc : List Char, hasCS desc = false →
      rsplitColonSpace (m ++ ':' :: ' ' :: desc) = (m, some desc)) ∧
    (∀ s : List Char, hasCS s = false → rsplitColonSpace s = (s, none)) ∧
    (∀ s : List Char, '\n' ∉ s →
      (splitDepLine s = none ↔
        (rsplitColonSpace s).1.takeWhile (fun c => !(isOpChar c)) = [])) ∧
    (∀ (s : List Char) (e : DependEntry), splitDepLine s = some e →
      e.name ≠ [] ∧ (∀ c ∈ e.name, isOpChar c = false) ∧
      (rsplitColonSpace s).1 =
        e.name ++ e.mod.getD [] ++ e.version_str.getD [] ∧
      (e.mod = none ↔ e.version_str = none) ∧
      (∀ op, e.mod = some op →
        op ∈ [['<', '='], ['>', '='], ['<'], ['>'], ['=']]) ∧
      e.desc = (rsplitColonSpace s).2) ∧
    splitDepLine ("foo>=1.2: optional thing".toList) =
      some ⟨"foo".toList, some ['>', '='], some "1.2".toList,
        some "optional thing".toList⟩ := by
  refine ⟨rsplitCS_split, rsplitCS_no, ?_, ?_, by decide⟩
  · intro s hnl
    have hpre : '\n' ∉ (rsplitColonSpace s).1 :=
      fun hm => hnl (rsplitCS_pre_mem s hm)
    simp only [splitDepLine]
    rcases hm : dependMatch (rsplitColonSpace s).1 with _ | ⟨n, rest⟩
    · simpa using (dependMatch_none_iff hpre).mp hm
    · constructor
      · intro hcontra
        simp at hcontra
      · intro hempty
        have := (dependMatch_none_iff hpre).mpr hempty
        rw [hm] at this
        simp at this
  · intro s e h
    simp only [splitDepLine] at h
    rcases hm : dependMatch (rsplitColonSpace s).1 with _ | ⟨n, rest⟩
    · rw [hm] at h; simp at h
    · rw [hm] at h
      simp only [Option.some.injEq] at h
      obtain ⟨hne, hfree, hdecomp, hfive⟩ := dependMatch_some_spec hm
      subst h
      refine ⟨hne, hfree, ?_, ?_, ?_, rfl⟩
      · rcases rest with _ | ⟨op, v⟩
        · simpa [optText] using hdecomp
        · simpa [optText, List.append_assoc] using hdecomp
      · rcases rest with _ | ⟨op, v⟩ <;> simp
      · intro op hop
        rcases rest with _ | ⟨op', v'⟩
        · simp at hop
        · simp only [Option.map_some', Option.some.injEq] at hop
          exact hop ▸ hfive op' v' rfl

/-- Witness for C7 at concrete inputs. -/
theorem depend_line_parsing_witness :
    rsplitColonSpace ("a".toList ++ ':' :: ' ' :: ['b']) = ("a".toList, some ['b']) :=
  depend_line_parsing.1 "a".toList ['b'] (by decide)

end Claim7

section Claim8

/-- A `_PackageEntry`: the field-tag → value-lines mapping, modelled
as an association list with unique keys (Python dict). -/
abbrev PacEntry := List (List Char × List (List Char))

/-- Python dict assignment `d[cat] = values`: replace the value in
place when the key exists (keeping its position), append otherwise. -/
def dinsert (d : PacEntry) (k : List Char) (v : List (List Char)) : PacEntry :=
  if (d.lookup k).isSome then
    d.map (fun p => if p.1 = k then (k, v) else p)
  else d ++ [(k, v)]

/-- `l.strip()`, ASCII whitespace. -/
def stripLine (l : List Char) : List Char :=
  ((l.dropWhile Char.isWhitespace).reverse.dropWhile Char.isWhitespace).reverse

/-- The loop of `Database._parse_desc` over the (already split) lines:
a stripped line becomes the tag when none is current, a blank line
commits the pending pair and resets, any other line is appended to the
accumulator; a pending pair is committed at end of input. -/
def parseDescGo : List (List Char) → Option (List Char) → List (List Char) →
    PacEntry → PacEntry
  | [], none, _, d => d
  | [], some cat, values, d => dinsert d cat values
  | l :: rest, cat?, values, d =>
    let l' := stripLine l
    match cat? with
    | none => parseDescGo rest (some l') values d
    | some cat =>
      if l' = [] then parseDescGo rest none [] (dinsert d cat values)
      else parseDescGo rest (some cat) (values ++ [l']) d

/-- `Database._parse_desc` on the lines of `t.splitlines()`. -/
def parse_desc (lines : List (List Char)) : PacEntry :=
  parseDescGo lines none [] []

lemma lookup_cons_self (k : List Char) (pv : List (List Char))
    (d : PacEntry) : List.lookup k ((k, pv) :: d) = some pv := by
  simp only [List.lookup, beq_self_eq_true]

lemma lookup_cons_ne {pk k : List Char} (pv : List (List Char))
    (d : PacEntry) (h : pk ≠ k) :
    List.lookup k ((pk, pv) :: d) = List.lookup k d := by
  have hb : (k == pk) = false := by
    simp only [beq_eq_false_iff_ne, ne_eq]
    exact fun he => h he.symm
  simp only [List.lookup, hb]

lemma lookup_map_replace (k : List Char) (v : List (List Char)) :
    ∀ (d : PacEntry), (d.lookup k).isSome →
      (d.map (fun p => if p.1 = k then (k, v) else p)).lookup k = some v := by
  intro d
  induction d with
  | nil => intro h; simp at h
  | cons p d ih =>
    intro h
    rcases p with ⟨pk, pv⟩
    by_cases hp : pk = k
    · subst hp
      simp only [List.map_cons, if_pos rfl]
      exact lookup_cons_self _ v _
    · rw [lookup_cons_ne pv d hp] at h
      simp only [List.map_cons]
      rw [if_neg (by exact hp)]
      rw [lookup_cons_ne pv _ hp]
      exact ih h

lemma lookup_append_last (k : List Char) (v : List (List Char)) :
    ∀ (d : PacEntry), d.lookup k = none →
      (d ++ [(k, v)]).lookup k = some v := by
  intro d
  induction d with
  | nil => intro _; exact lookup_cons_self k v []
  | cons p d ih =>
    intro h
    rcases p with ⟨pk, pv⟩
    by_cases hp : pk = k
    · subst hp
      rw [lookup_cons_self] at h
      simp at h
    · rw [lookup_cons_ne pv d hp] at h
      rw [List.cons_append, lookup_cons_ne pv _ hp]
      exact ih h

lemma lookup_dinsert (d : PacEntry) (k : List Char) (v : List (List Char)) :
    (dinsert d k v).lookup k = some v := by
  unfold dinsert
  by_cases h : (d.lookup k).isSome
  · rw [if_pos h]
    exact lookup_map_replace k v d h
  · rw [if_neg h]
    exact lookup_append_last k v d (Option.not_isSome_iff_eq_none.mp h)

lemma parseDescGo_tag (l : List Char) (rest : List (List Char))
    (values : List (List Char)) (d : PacEntry) :
    parseDescGo (l :: rest) none values d =
      parseDescGo rest (some (stripLine l)) values d := rfl

lemma parseDescGo_blank (l : List Char) (rest : List (List Char)) (cat : List Char)
    (values : List (List Char)) (d : PacEntry) (h : stripLine l = []) :
    parseDescGo (l :: rest) (some cat) values d =
      parseDescGo rest none [] (dinsert d cat values) := by
  simp only [parseDescGo]
  rw [if_pos h]

lemma parseDescGo_value (l : List Char) (rest : List (List Char)) (cat : List Char)
    (values : List (List Char)) (d : PacEntry) (h : stripLine l ≠ []) :
    parseDescGo (l :: rest) (some cat) values d =
      parseDescGo rest (some cat) (values ++ [stripLine l]) d := by
  simp only [parseDescGo]
  rw [if_neg h]

lemma parseDescGo_block : ∀ (vs rest : List (List Char)) (cat : List Char)
    (acc : List (List Char)) (d : PacEntry),
    (∀ v ∈ vs, stripLine v ≠ []) →
    parseDescGo (vs ++ [] :: rest) (some cat) acc d =
      parseDescGo rest none [] (dinsert d cat (acc ++ vs.map stripLine)) := by
  intro vs
  induction vs with
  | nil =>
    intro rest cat acc d _
    rw [List.nil_append, parseDescGo_blank _ _ _ _ _ (by rfl)]
    simp
  | cons v vs ih =>
    intro rest cat acc d h
    rw [List.cons_append, parseDescGo_value _ _ _ _ _ (h v (by simp))]
    rw [ih rest cat (acc ++ [stripLine v]) d (fun x hx => h x (by simp [hx]))]
    simp [List.append_assoc]

lemma parseDescGo_end : ∀ (vs : List (List Char)) (cat : List Char)
    (acc : List (List Char)) (d : PacEntry),
    (∀ v ∈ vs, stripLine v ≠ []) →
    parseDescGo vs (some cat) acc d = dinsert d cat (acc ++ vs.map stripLine) := by
  intro vs
  induction vs with
  | nil =>
    intro cat acc d _
    simp [parseDescGo]
  | cons v vs ih =>
    intro cat acc d h
    rw [parseDescGo_value _ _ _ _ _ (h v (by simp))]
    rw [ih cat (acc ++ [stripLine v]) d (fun x hx => h x (by simp [hx]))]
    simp [List.append_assoc]

/-- C8: metadata block parsing — a stripped line becomes the current
tag when none is set; a blank line commits the accumulated values
under the tag and resets; other lines accumulate; a pending pair is
committed at end of input without a trailing blank line; and a
repeated tag's later value list overwrites the earlier one in the
resulting map. -/
theorem desc_block_parsing :
    (∀ (tag : List Char) (vs rest : List (List Char)) (d : PacEntry),
      (∀ v ∈ vs, stripLine v ≠ []) →
      parseDescGo (tag :: (vs ++ [] :: rest)) none [] d =
        parseDescGo rest none [] (dinsert d (stripLine tag) (vs.map stripLine))) ∧
    (∀ (tag : List Char) (vs : List (List Char)) (d : PacEntry),
      (∀ v ∈ vs, stripLine v ≠ []) →
      parseDescGo (tag :: vs) none [] d =
        dinsert d (stripLine tag) (vs.map stripLine)) ∧
    (∀ (tag : List Char) (vs1 vs2 : List (List Char)),
      (∀ v ∈ vs1, stripLine v ≠ []) → (∀ v ∈ vs2, stripLine v ≠ []) →
      (parse_desc (tag :: (vs1 ++ [] :: (tag :: vs2)))).lookup (stripLine tag) =
        some (vs2.map stripLine)) := by
  refine ⟨?_, ?_, ?_⟩
  · intro tag vs rest d h
    rw [parseDescGo_tag, parseDescGo_block vs rest _ [] d h]
    simp
  · intro tag vs d h
    rw [parseDescGo_tag, parseDescGo_end vs _ [] d h]
    simp
  · intro tag vs1 vs2 h1 h2
    unfold parse_desc
    rw [parseDescGo_tag, parseDescGo_block vs1 _ _ [] [] h1,
      parseDescGo_tag, parseDescGo_end vs2 _ [] _ h2]
    simp only [List.nil_append]
    exact lookup_dinsert _ _ _

/-- Witness for C8 at concrete inputs: a duplicated tag keeps the
later block's values. -/
theorem desc_block_parsing_witness :
    (parse_desc ("%T%".toList :: ([['a']] ++ [] :: ("%T%".toList :: [['b']])))).lookup
        (stripLine "%T%".toList) = some ([['b']].map stripLine) :=
  desc_block_parsing.2.2 "%T%".toList [['a']] [['b']] (by decide) (by decide)

end Claim8

section Claim9

/-- `Package._get_list_entry`: a missing tag yields the empty list. -/
def get_list_entry (entry : PacEntry) (name : List Char) : List (List Char) :=
  (entry.lookup name).getD []

/-- `Package.name` (`self._entry['%NAME%'][0]`; total here, the claims
only involve entries carrying `%NAME%`). -/
def pkgName (entry : PacEntry) : List Char :=
  (get_list_entry entry "%NAME%".toList).headD []

/-- The key set of `_split_depends(lines)` — the names of the parsed
dependency entries; `none` when a line fails to parse (Python raises
there). -/
def dependKeys : List (List Char) → Option (List (List Char))
  | [] => some []
  | d :: rest =>
    match splitDepLine d, dependKeys rest with
    | some e, some ks => some (e.name :: ks)
    | _, _ => none

/-- Keys of `Package.depends`. -/
def pkgDepends (entry : PacEntry) : Option (List (List Char)) :=
  dependKeys (get_list_entry entry "%DEPENDS%".toList)

/-- Keys of `Package.provides`. -/
def pkgProvides (entry : PacEntry) : Option (List (List Char)) :=
  dependKeys (get_list_entry entry "%PROVIDES%".toList)

/-- The scan loop of `Package.compute_rdepends` over the database for
`dependattr = 'depends'`: a package is kept when the queried name is
among its depends keys or those keys meet the queried provides keys. -/
def rdependsGo (qname : List Char) (provs : List (List Char)) :
    List PacEntry → Option (List (List Char))
  | [] => some []
  | p :: rest =>
    match pkgDepends p, rdependsGo qname provs rest with
    | some dk, some res =>
      if qname ∈ dk ∨ ∃ k ∈ provs, k ∈ dk then some (pkgName p :: res)
      else some res
    | _, _ => none

/-- `Package.compute_requiredby` (`compute_rdepends('depends')`). -/
def compute_requiredby (db : List PacEntry) (self : PacEntry) :
    Option (List (List Char)) :=
  match pkgProvides self with
  | none => none
  | some provs => rdependsGo (pkgName self) provs db

lemma rdependsGo_mem : ∀ (db : List PacEntry) (qname : List Char)
    (provs res : List (List Char)),
    rdependsGo qname provs db = some res →
    ∀ x, x ∈ res ↔ ∃ p ∈ db, pkgName p = x ∧ ∃ dk, pkgDepends p = some dk ∧
      (qname ∈ dk ∨ ∃ k ∈ provs, k ∈ dk) := by
  intro db qname provs
  induction db with
  | nil =>
    intro res h x
    simp only [rdependsGo, Option.some.injEq] at h
    subst h
    simp
  | cons p db ih =>
    intro res h x
    simp only [rdependsGo] at h
    rcases hd : pkgDepends p with _ | dk
    · rw [hd] at h
      simp at h
    · rcases hrec : rdependsGo qname provs db with _ | res'
      · rw [hd, hrec] at h
        simp at h
      · rw [hd, hrec] at h
        dsimp only at h
        by_cases hcond : qname ∈ dk ∨ ∃ k ∈ provs, k ∈ dk
        · rw [if_pos hcond] at h
          simp only [Option.some.injEq] at h
          subst h
          constructor
          · intro hx
            rcases List.mem_cons.mp hx with hx | hx
            · exact ⟨p, by simp, hx.symm, dk, hd, hcond⟩
            · obtain ⟨p', hp', hrest⟩ := (ih res' hrec x).mp hx
              exact ⟨p', by simp [hp'], hrest⟩
          · rintro ⟨p', hp', hname, dk', hdk', hcond'⟩
            rcases List.mem_cons.mp hp' with rfl | hp'
            · rw [← hname]
              exact List.mem_cons_self _ _
            · exact List.mem_cons_of_mem _
                ((ih res' hrec x).mpr ⟨p', hp', hname, dk', hdk', hcond'⟩)
        · rw [if_neg hcond] at h
          simp only [Option.some.injEq] at h
          subst h
          rw [ih res' hrec x]
          constructor
          · rintro ⟨p', hp', hrest⟩
            exact ⟨p', List.mem_cons_of_mem _ hp', hrest⟩
          · rintro ⟨p', hp', hname, dk', hdk', hcond'⟩
            rcases List.mem_cons.mp hp' with rfl | hp'
            · rw [hd] at hdk'
              injection hdk' with hdk'
              subst hdk'
              exact absurd hcond' hcond
            · exact ⟨p', hp', hname, dk', hdk', hcond'⟩

/-- A two-package index: `A` depends on `B` with an (unsatisfied)
version constraint on the edge, `B` depends on nothing. -/
def entryA : PacEntry :=
  [("%NAME%".toList, ["A".toList]),
   ("%VERSION%".toList, ["1.0-1".toList]),
   ("%DEPENDS%".toList, ["B>=2.0".toList])]

/-- The second package of the example index. -/
def entryB : PacEntry :=
  [("%NAME%".toList, ["B".toList]),
   ("%VERSION%".toList, ["1.0-1".toList])]

/-- C9: `requiredBy()` returns exactly the packages of the index whose
depends keys contain the queried package's name or meet one of its
provides keys — version constraints on the edge are not consulted; in
particular, with `A` depending on `B` (even under an unsatisfied
constraint `>=2.0`), `A.requiredBy()` is empty and `B.requiredBy()`
is `[A]`. -/
theorem requiredby_spec :
    (∀ (db : List PacEntry) (q : PacEntry) (provs res : List (List Char)),
      pkgProvides q = some provs →
      compute_requiredby db q = some res →
      ∀ x, x ∈ res ↔ ∃ p ∈ db, pkgName p = x ∧ ∃ dk, pkgDepends p = some dk ∧
        (pkgName q ∈ dk ∨ ∃ k ∈ provs, k ∈ dk)) ∧
    compute_requiredby [entryA, entryB] entryA = some [] ∧
    compute_requiredby [entryA, entryB] entryB = some ["A".toList] := by
  refine ⟨?_, by decide, by decide⟩
  intro db q provs res hprov hres x
  unfold compute_requiredby at hres
  rw [hprov] at hres
  exact rdependsGo_mem db (pkgName q) provs res hres x

/-- Witness for C9 at the concrete index. -/
theorem requiredby_spec_witness :
    ∃ p ∈ [entryA, entryB], pkgName p = "A".toList ∧
      ∃ dk, pkgDepends p = some dk ∧
        (pkgName entryB ∈ dk ∨ ∃ k ∈ ([] : List (List Char)), k ∈ dk) :=
  (requiredby_spec.1 [entryA, entryB] entryB [] ["A".toList]
    (by decide) (by decide) ("A".toList)).mp (by decide)

end Claim9

example : vercmp "1.5.1" "1.5.0" = 1 := by decide
example : vercmp "1.5.1" "1.5" = 1 := by decide
example : vercmp "1.5" "1.5-1" = 0 := by decide
example : vercmp "1.0-1" "1.1" = -1 := by decide
example : vercmp "1.0a" "1.0alpha" = -1 := by decide
example : vercmp "1.0rc" "1.0" = -1 := by decide
example : vercmp "2.0" "2_0" = 0 := by decide
example : vercmp "0:1.0" "1.0" = 0 := by decide
example : vercmp "1:1.0" "0:1.0-1" = 1 := by decide
example : vercmp "2.0_a" "2_0.a" = 0 := by decide
example : vercmp "2___a" "2_a" = 1 := by decide
example : vercmp "1.5.b-1" "1.5.b" = 0 := by decide
example : canonicalize "1.05.0-01" = "1.5.0-1" := by decide
example : canonicalize "2:1__0" = "2:1.0" := by decide

end Pacdb
